import Mathlib

/- Verification of the decision trickle engine of the ilclang repository.

   The definitions below are a shallow embedding of
   src/ilclang/utils/decision.py and src/ilclang/utils/decision_file.py.
   Python strings are Lean Strings (in this toolchain a String wraps a
   List Char); the mutable DecisionSet methods become pure functions
   returning new sets; Python operations that can raise (list.index,
   list.remove, assert, parse errors) return Option; the unbounded
   while-loop and recursion of trickle_negative take an explicit fuel
   argument and return none when the fuel runs out.  -/

/-- CallSite from pyllinliner (per the spec: an immutable triple with
structural equality). -/
structure CallSite where
  caller : String
  callee : String
  location : String
deriving DecidableEq, Repr

/-- Decision from decision.py: a call site, the inlining outcome, and the
modified ("fixed") flag. -/
structure Decision where
  call_site : CallSite
  inlined : Bool
  modified : Bool
deriving DecidableEq, Repr

/-- Decision.clone from decision.py. -/
def Decision.clone (d : Decision) : Decision :=
  Decision.mk d.call_site d.inlined d.modified

/-- DecisionSet from decision.py: an ordered list of decisions. -/
structure DecisionSet where
  decisions : List Decision
deriving DecidableEq, Repr

/-- DecisionSet.clone from decision.py: deep-copies every decision. -/
def DecisionSet.clone (s : DecisionSet) : DecisionSet :=
  DecisionSet.mk (s.decisions.map Decision.clone)

/-- DecisionSet.add_decision from decision.py: appends. -/
def DecisionSet.add_decision (s : DecisionSet) (cs : CallSite) (inl : Bool)
    (fixed : Bool) : DecisionSet :=
  DecisionSet.mk (s.decisions ++ [Decision.mk cs inl fixed])

/-- DecisionSet.replace_decision from decision.py: list.index finds the first
structurally equal element (raising, hence none, when absent) and the slot is
overwritten with a freshly built Decision. -/
def DecisionSet.replace_decision (s : DecisionSet) (dec : Decision)
    (cs : CallSite) (inl : Bool) (fixed : Bool) : Option DecisionSet :=
  match s.decisions.findIdx? (fun d => decide (d = dec)) with
  | none => none
  | some i => some (DecisionSet.mk (s.decisions.set i (Decision.mk cs inl fixed)))

/-- DecisionSet.decision_for from decision.py: first decision whose call site
equals the argument. -/
def DecisionSet.decision_for (s : DecisionSet) (cs : CallSite) : Option Decision :=
  s.decisions.find? (fun d => decide (d.call_site = cs))

/-- Boolean prefix test on character lists. -/
def isPrefixL : List Char → List Char → Bool
  | [], _ => true
  | _ :: _, [] => false
  | a :: as, b :: bs => a == b && isPrefixL as bs

/-- Python substring containment (the "in" operator) on character lists. -/
def containsSub (needle hay : List Char) : Bool :=
  (List.range (hay.length + 1)).any fun i => isPrefixL needle (hay.drop i)

/-- Python substring containment on strings. -/
def containsStr (needle hay : String) : Bool :=
  containsSub needle.data hay.data

/-- Scan of get_next_conflicting_decisions from decision.py: walk the list with
the set of already seen locations, returning the first repeated location. -/
def findDupLocation : List Decision → List String → Option String
  | [], _ => none
  | d :: rest, seen =>
    if d.call_site.location ∈ seen then some d.call_site.location
    else findDupLocation rest (d.call_site.location :: seen)

/-- DecisionSet.get_next_conflicting_decisions from decision.py. -/
def DecisionSet.get_next_conflicting_decisions (s : DecisionSet) :
    Option (List Decision) :=
  match findDupLocation s.decisions [] with
  | none => none
  | some loc => some (s.decisions.filter fun d => decide (d.call_site.location = loc))

/-- Split a character list just before its first right bracket, mirroring
callee_location.index of the right bracket in remove_implicit_duplicates;
none when no right bracket occurs. -/
def splitAtRB : List Char → Option (List Char × List Char)
  | [] => none
  | c :: rest =>
    if c = ']' then some ([], c :: rest)
    else (splitAtRB rest).map fun p => (c :: p.1, p.2)

/-- The combined-location computation of remove_implicit_duplicates: the
callee location with the caller location spliced in before the callee
location's first right bracket (or appended as a new layer when the callee
location has no right bracket). -/
def combineLoc (callee_location location : String) : String :=
  match splitAtRB callee_location.data with
  | none => callee_location ++ "@[" ++ location ++ "]"
  | some (base, tail) =>
    String.mk base ++ "@[" ++ location ++ "]" ++ String.mk tail

/-- The seen_locations dictionary of remove_implicit_duplicates: an
insertion-ordered association list caller -> callee -> locations. -/
abbrev SeenMap := List (String × List (String × List String))

/-- First-match association-list lookup (Python dict lookup). -/
def alistFind {α : Type} (k : String) : List (String × α) → Option α
  | [] => none
  | (k2, v) :: rest => if k2 = k then some v else alistFind k rest

/-- Append a location under a callee key, creating the entry if absent. -/
def updCaller (callee loc : String) :
    List (String × List String) → List (String × List String)
  | [] => [(callee, [loc])]
  | (k, v) :: rest =>
    if k = callee then (k, v ++ [loc]) :: rest
    else (k, v) :: updCaller callee loc rest

/-- Record one decision into seen_locations. -/
def seenInsert (caller callee loc : String) : SeenMap → SeenMap
  | [] => [(caller, [(callee, [loc])])]
  | (k, inner) :: rest =>
    if k = caller then (k, updCaller callee loc inner) :: rest
    else (k, inner) :: seenInsert caller callee loc rest

/-- The nested loops of remove_implicit_duplicates that look for a pair of
already seen edges caller -> b and b -> callee whose locations combine to the
given location. -/
def existsBuild (m : SeenMap) (caller callee loc : String) : Bool :=
  match alistFind caller m with
  | none => false
  | some callees =>
    callees.any fun p =>
      match alistFind p.1 m with
      | none => false
      | some bCallees =>
        bCallees.any fun q =>
          decide (q.1 = callee) &&
            p.2.any fun l => q.2.any fun cl => decide (combineLoc cl l = loc)

/-- First phase of remove_implicit_duplicates: the buildable_decisions list,
collected while seen_locations is filled in decision order. -/
def scanBuildable : List Decision → SeenMap → List Decision
  | [], _ => []
  | d :: rest, seen =>
    let hit := existsBuild seen d.call_site.caller d.call_site.callee
        d.call_site.location
    let seen2 := seenInsert d.call_site.caller d.call_site.callee
        d.call_site.location seen
    if hit then d :: scanBuildable rest seen2 else scanBuildable rest seen2

/-- Python list.remove: drop the first structurally equal element, error
(none) when absent. -/
def removeFirst : List Decision → Decision → Option (List Decision)
  | [], _ => none
  | x :: xs, d =>
    if x = d then some xs
    else (removeFirst xs d).map fun l => x :: l

/-- Sequential list.remove calls. -/
def removeAll : List Decision → List Decision → Option (List Decision)
  | decs, [] => some decs
  | decs, r :: rs =>
    match removeFirst decs r with
    | none => none
    | some decs2 => removeAll decs2 rs

/-- Second phase of remove_implicit_duplicates: for each buildable decision,
collect the decisions whose location textually references it, then remove the
buildable decision and all of those references. -/
def removalPhase : List Decision → List Decision → Option (List Decision)
  | decs, [] => some decs
  | decs, d :: rest =>
    let referenced := decs.filter fun dd =>
      containsStr ("@[" ++ d.call_site.location ++ "]") dd.call_site.location
    match removeFirst decs d with
    | none => none
    | some decs1 =>
      match removeAll decs1 referenced with
      | none => none
      | some decs2 => removalPhase decs2 rest

/-- DecisionSet.remove_implicit_duplicates from decision.py. -/
def DecisionSet.remove_implicit_duplicates (s : DecisionSet) : Option DecisionSet :=
  (removalPhase s.decisions (scanBuildable s.decisions [])).map DecisionSet.mk

/-- Split a character list on a separator character (Python str.split with a
one-character separator). -/
def splitOnChar (ch : Char) : List Char → List (List Char)
  | [] => [[]]
  | x :: rest =>
    let r := splitOnChar ch rest
    if x == ch then [] :: r
    else
      match r with
      | [] => [[x]]
      | h :: t => (x :: h) :: t

/-- The location-to-chain computation of trickle_positive: strip every left
bracket, then every right bracket, then split on the at sign. -/
def splitChain (s : String) : List String :=
  ((splitOnChar '@'
      ((s.data.filter fun c => !decide (c = '[')).filter
        fun c => !decide (c = ']'))).map String.mk)

/-- The location-rebuilding fold of trickle_positive: start from the first
element and wrap each further element around the accumulator as a new
outermost layer. -/
def buildLoc : List String → String
  | [] => ""
  | x :: rest => rest.foldl (fun acc l => l ++ "@[" ++ acc ++ "]") x

/-- Python location.count of the at sign, the sort key of trickle_positive. -/
def countAt (s : String) : Nat := s.data.count '@'

/-- Stable insertion of a decision after all earlier decisions with a sort key
not exceeding its own. -/
def insertSorted (d : Decision) : List Decision → List Decision
  | [] => [d]
  | x :: xs =>
    if countAt x.call_site.location ≤ countAt d.call_site.location then
      x :: insertSorted d xs
    else d :: x :: xs

/-- Python sorted with the at-sign-count key: a stable sort, realized as a
stable insertion sort. -/
def sortByDepth (l : List Decision) : List Decision :=
  l.foldl (fun acc d => insertSorted d acc) []

/-- Python list.insert at a position within bounds. -/
def insertAt (l : List Decision) (n : Nat) (d : Decision) : List Decision :=
  l.take n ++ d :: l.drop n

/-- trickle_positive from decision_file.py.  The leading assert and
list.index become none on failure. -/
def trickle_positive (decisions : DecisionSet) (td : Decision) :
    Option (List DecisionSet) :=
  if !td.inlined then none
  else
    match decisions.decisions.findIdx? (fun d => decide (d = td)) with
    | none => none
    | some trickle_idx =>
      let referenced := (decisions.decisions.drop trickle_idx).filter
        fun d => decide (d.call_site.caller = td.call_site.callee)
      let new_decisions := referenced.map fun d =>
        let rev := (splitChain td.call_site.location).reverse ++
          (splitChain d.call_site.location).reverse
        Decision.mk
          (CallSite.mk td.call_site.caller d.call_site.callee (buildLoc rev))
          d.inlined true
      let sorted := sortByDepth new_decisions
      let spliced := (sorted.foldl
        (fun (p : List Decision × Nat) d => (insertAt p.1 p.2 d, p.2 + 1))
        (decisions.decisions, trickle_idx + 1)).1
      some [DecisionSet.mk spliced]

/-- One step of Python str.replace removing every occurrence of a pattern;
the fuel is the length of the subject, enough because every step consumes at
least one character. -/
def replaceAllAux : Nat → List Char → List Char → List Char
  | 0, _, s => s
  | _ + 1, _, [] => []
  | n + 1, pat, c :: rest =>
    if !pat.isEmpty && isPrefixL pat (c :: rest) then
      replaceAllAux n pat ((c :: rest).drop pat.length)
    else c :: replaceAllAux n pat rest

/-- Python str.replace of a pattern by the empty string (all occurrences,
left to right, non-overlapping). -/
def replaceAllL (pat s : List Char) : List Char :=
  replaceAllAux s.length pat s

/-- The dependant-decision filter of trickle_negative: decisions whose
location contains the bracketed location of the updated decision. -/
def dependantsOf (ds : DecisionSet) (upd : Decision) : List Decision :=
  ds.decisions.filter fun d =>
    containsStr ("@[" ++ upd.call_site.location ++ "]") d.call_site.location

/-- The rewritten call site of a dependant decision in trickle_negative: the
caller becomes the updated decision's callee and the bracketed location of
the updated decision is stripped from the location. -/
def rewriteTarget (upd dd : Decision) : CallSite :=
  CallSite.mk upd.call_site.callee dd.call_site.callee
    (String.mk (replaceAllL ("@[" ++ upd.call_site.location ++ "]").data
      dd.call_site.location.data))

/-- The replacement loop of trickle_negative, one replace_decision call per
dependant decision. -/
def applyReplacements : DecisionSet → List (Decision × CallSite) → Option DecisionSet
  | ds, [] => some ds
  | ds, (d, cs) :: rest =>
    match ds.replace_decision d cs d.inlined true with
    | none => none
    | some ds2 => applyReplacements ds2 rest

mutual

/-- trickle_negative from decision_file.py: rewrite the dependant decisions,
then resolve location conflicts through the worklist loop. -/
def trickle_negative : Nat → DecisionSet → Decision → Option (List DecisionSet)
  | 0, _, _ => none
  | fuel + 1, decisions, upd =>
    let deps := dependantsOf decisions upd
    let new_call_sites := deps.map fun dd => (dd, rewriteTarget upd dd)
    match applyReplacements decisions new_call_sites with
    | none => none
    | some ds2 => trickleNegLoop fuel [ds2]

/-- The while-loop of trickle_negative: run passes until a pass finds no
conflicting location in any set, appending the split-off sets after each
pass. -/
def trickleNegLoop : Nat → List DecisionSet → Option (List DecisionSet)
  | 0, _ => none
  | fuel + 1, sets =>
    match processPass fuel sets with
    | none => none
    | some (sets2, newSets, anyConf) =>
      if anyConf then trickleNegLoop fuel (sets2 ++ newSets)
      else some sets2

/-- One pass of the while-loop of trickle_negative over the current list of
decision sets: for each set, the first conflicting location (if any) has its
repeated agreeing decisions removed, and a disagreement splits the set in
two, recursively trickling the kept not-inlined decision through the new
set.  Returns the updated sets, the split-off sets collected during the
pass, and whether any conflict was seen. -/
def processPass : Nat → List DecisionSet →
    Option (List DecisionSet × List DecisionSet × Bool)
  | _, [] => some ([], [], false)
  | 0, _ :: _ => none
  | fuel + 1, ds :: rest =>
    match ds.get_next_conflicting_decisions with
    | none =>
      match processPass fuel rest with
      | none => none
      | some (rest2, news, conf) => some (ds :: rest2, news, conf)
    | some confl =>
      let inl := confl.filter fun d => d.inlined
      let ninl := confl.filter fun d => !d.inlined
      match removeAll ds.decisions (inl.drop 1 ++ ninl.drop 1) with
      | none => none
      | some decs1 =>
        match inl, ninl with
        | i0 :: _, n0 :: _ =>
          match removeFirst decs1 n0, removeFirst decs1 i0 with
          | some keepInl, some keepNinl =>
            match trickle_negative fuel (DecisionSet.mk keepNinl) n0 with
            | none => none
            | some subSets =>
              match processPass fuel rest with
              | none => none
              | some (rest2, news, _) =>
                some (DecisionSet.mk keepInl :: rest2, subSets ++ news, true)
          | _, _ => none
        | _, _ =>
          match processPass fuel rest with
          | none => none
          | some (rest2, news, _) =>
            some (DecisionSet.mk decs1 :: rest2, news, true)

end

/-- The remove_implicit_duplicates loop at the end of trickle_decision_change,
applied to every returned set in order. -/
def mapRemoveDups : List DecisionSet → Option (List DecisionSet)
  | [] => some []
  | s :: rest =>
    match s.remove_implicit_duplicates with
    | none => none
    | some s2 =>
      match mapRemoveDups rest with
      | none => none
      | some rest2 => some (s2 :: rest2)

/-- trickle_decision_change from decision_file.py. -/
def trickle_decision_change (fuel : Nat) (og_decisions : DecisionSet)
    (call_site : CallSite) (inlined : Bool) : Option (List DecisionSet) :=
  let decisions := og_decisions.clone
  match decisions.decision_for call_site with
  | none => none
  | some og_decision =>
    match decisions.replace_decision og_decision call_site inlined true with
    | none => none
    | some ds2 =>
      match ds2.decision_for call_site with
      | none => none
      | some updated_decision =>
        match (if inlined then trickle_positive ds2 updated_decision
               else trickle_negative fuel ds2 updated_decision) with
        | none => none
        | some final => mapRemoveDups final

/-- trickle_decision_flip from decision_file.py. -/
def trickle_decision_flip (fuel : Nat) (og_decisions : DecisionSet)
    (call_site : CallSite) : Option (List DecisionSet) :=
  match og_decisions.decision_for call_site with
  | none => none
  | some og_decision =>
    trickle_decision_change fuel og_decisions call_site (!og_decision.inlined)

/- ### Location composer and decomposer -/

/-- Modelled from the spec: no standalone compose function exists in the
source (trickle_positive and trickle_negative inline the operation); the
spec defines compose of an inner and an outer location key as the inner key
followed by the outer key in a new bracket layer. -/
def compose (inner outer : String) : String :=
  inner ++ "@[" ++ outer ++ "]"

/-- Forward scan for the first at-sign-bracket boundary: returns the
characters before it and the characters after it. -/
def scanBase : List Char → Option (List Char × List Char)
  | [] => none
  | c :: rest =>
    if c = '@' && isPrefixL ['['] rest then some ([], rest.drop 1)
    else (scanBase rest).map fun p => (c :: p.1, p.2)

/-- Scan for the right bracket matching an already opened layer, tracking
nested bracket depth: returns the content and the remainder after the
matching right bracket. -/
def matchBracket : List Char → Nat → Option (List Char × List Char)
  | [], _ => none
  | c :: rest, d =>
    if c = ']' then
      match d with
      | 0 => some ([], rest)
      | d + 1 => (matchBracket rest d).map fun p => (c :: p.1, p.2)
    else if c = '[' then (matchBracket rest (d + 1)).map fun p => (c :: p.1, p.2)
    else (matchBracket rest d).map fun p => (c :: p.1, p.2)

/-- Modelled from the spec: no standalone decompose function exists in the
source; the spec splits a key on the first unmatched at-sign-bracket
boundary into the base segment and the remaining nested chain, with
brackets required to balance through to the end of the key (anything after
the matching bracket is a malformed key, a fatal parse error, hence none). -/
def decompose (key : String) : Option (String × Option String) :=
  match scanBase key.data with
  | none => some (key, none)
  | some (base, rest) =>
    match matchBracket rest 0 with
    | none => none
    | some (content, remainder) =>
      if remainder = [] then some (String.mk base, some (String.mk content))
      else none

/-- A raw source location: no at sign and no brackets. -/
def isRawLoc (s : String) : Prop :=
  ∀ c ∈ s.data, c ≠ '@' ∧ c ≠ '[' ∧ c ≠ ']'

instance (s : String) : Decidable (isRawLoc s) := by
  unfold isRawLoc; infer_instance

/-- The canonical serialization of a nesting chain of raw locations, per the
spec grammar for location keys. -/
def serializeChain : List String → String
  | [] => ""
  | [x] => x
  | x :: rest => x ++ "@[" ++ serializeChain rest ++ "]"

/-- A well-formed location key: the serialization of a nonempty chain of raw
locations. -/
def IsLocationKey (s : String) : Prop :=
  ∃ chain : List String, chain ≠ [] ∧ (∀ l ∈ chain, isRawLoc l) ∧
    s = serializeChain chain

/- ### Decision-file serialization -/

/-- The single-quote character used by the CallSite repr. -/
def qc : Char := '\''

/-- One-character string holding the single quote. -/
def quoteS : String := String.mk [qc]

/-- The repr of a pyllinliner CallSite, per the spec's file-format section. -/
def callSiteRepr (cs : CallSite) : String :=
  "CallSite(caller=" ++ quoteS ++ cs.caller ++ quoteS ++ ", callee=" ++
    quoteS ++ cs.callee ++ quoteS ++ ", location=" ++ quoteS ++
    cs.location ++ quoteS ++ ")"

/-- The line produced for one decision by decision.py (its string
conversion): round bracket for unmodified, square bracket for modified,
then the CallSite repr, a colon, and T or F. -/
def Decision.lineStr (d : Decision) : String :=
  (if d.modified then "[" else "(") ++ callSiteRepr d.call_site ++ " : " ++
    (if d.inlined then "T" else "F") ++ (if d.modified then "]" else ")")

/-- The line concatenation of the DecisionSet string conversion in
decision.py: one line per decision, each terminated by a newline. -/
def concatLines : List Decision → String
  | [] => ""
  | d :: rest => d.lineStr ++ "\n" ++ concatLines rest

/-- DecisionSet.save from decision.py writes the string conversion of the
set. -/
def DecisionSet.saveString (s : DecisionSet) : String :=
  concatLines s.decisions

/-- Python file-line iteration: split the content into lines, each keeping
its trailing newline if present. -/
def fileLines : List Char → List (List Char)
  | [] => []
  | c :: rest =>
    if c = '\n' then ['\n'] :: fileLines rest
    else
      match fileLines rest with
      | [] => [[c]]
      | l :: ls => (c :: l) :: ls

/-- Option-returning prefix strip. -/
def stripPrefixL (pat s : List Char) : Option (List Char) :=
  if isPrefixL pat s then some (s.drop pat.length) else none

/-- Split at the first occurrence of a delimiter, returning the characters
before it and after it; none when the delimiter does not occur. -/
def splitOnce (delim : List Char) : List Char → Option (List Char × List Char)
  | [] => none
  | c :: rest =>
    if isPrefixL delim (c :: rest) then some ([], (c :: rest).drop delim.length)
    else (splitOnce delim rest).map fun p => (c :: p.1, p.2)

/-- The literal before the caller group in the decision-file regex. -/
def hdrChars : List Char := "CallSite(caller=".data ++ [qc]

/-- The literal between the caller and callee groups. -/
def delimCallee : List Char := qc :: ", callee=".data ++ [qc]

/-- The literal between the callee and location groups. -/
def delimLoc : List Char := qc :: ", location=".data ++ [qc]

/-- The literal between the location group and the outcome letter. -/
def delimClose : List Char := qc :: ") : ".data

/-- One line of load_decision_file from decision_file.py: the regex match.
The bracket class is matched at the start of the line (serialized lines
always start with it), the three greedy groups are delimited by the quoted
literals (unambiguous whenever the fields contain no quote character, which
is the only case the round-trip theorem speaks about), and any characters
after the closing bracket are ignored, as re.search ignores them. -/
def parseLine : List Char → Option Decision
  | [] => none
  | b :: rest =>
    if b = '(' ∨ b = '[' then
      match stripPrefixL hdrChars rest with
      | none => none
      | some r1 =>
        match splitOnce delimCallee r1 with
        | none => none
        | some (caller, r2) =>
          match splitOnce delimLoc r2 with
          | none => none
          | some (callee, r3) =>
            match splitOnce delimClose r3 with
            | none => none
            | some (loc, r4) =>
              match r4 with
              | t :: close :: _ =>
                if (t = 'T' ∨ t = 'F') ∧ (close = ')' ∨ close = ']') then
                  some (Decision.mk
                    (CallSite.mk (String.mk caller) (String.mk callee)
                      (String.mk loc))
                    (decide (t = 'T')) (decide (b = '[')))
                else none
              | _ => none
    else none

/-- Python line.strip() is empty exactly when the line is all whitespace. -/
def isBlankLine (l : List Char) : Bool := l.all Char.isWhitespace

/-- The line loop of load_decision_file: skip blank lines, parse the rest in
order, failing the whole load on the first unparsable line. -/
def parseLines : List (List Char) → Option (List Decision)
  | [] => some []
  | l :: rest =>
    if isBlankLine l then parseLines rest
    else
      match parseLine l with
      | none => none
      | some d => (parseLines rest).map fun ds => d :: ds

/-- load_decision_file from decision_file.py, on the file content. -/
def load_decision_file (content : String) : Option DecisionSet :=
  (parseLines (fileLines content.data)).map DecisionSet.mk

/-- A field is clean when it contains neither the quote character nor a
newline: exactly the fields for which one serialized decision stays on one
line and the fixed regex groups are unambiguous. -/
def cleanField (f : String) : Prop := qc ∉ f.data ∧ '\n' ∉ f.data

instance (f : String) : Decidable (cleanField f) := by
  unfold cleanField; infer_instance

/-- All three call-site fields of a decision are clean. -/
def cleanDecision (d : Decision) : Prop :=
  cleanField d.call_site.caller ∧ cleanField d.call_site.callee ∧
    cleanField d.call_site.location

instance (d : Decision) : Decidable (cleanDecision d) := by
  unfold cleanDecision; infer_instance

/- ### Concrete example sets used by the claim theorems -/

/-- Base set for the C1 counterexample: conflict-free, with an existing
decision whose location equals the composite location that trickle_positive
will synthesize. -/
def c1Base : DecisionSet := DecisionSet.mk
  [Decision.mk (CallSite.mk "A" "B" "l1") false false,
   Decision.mk (CallSite.mk "B" "C" "l2") false false,
   Decision.mk (CallSite.mk "X" "Y" "l2@[l1]") false false]

/-- Base set for the C1 witness (the negative-flip example of the spec). -/
def c1WBase : DecisionSet := DecisionSet.mk
  [Decision.mk (CallSite.mk "A" "B" "l1") true false,
   Decision.mk (CallSite.mk "A" "C" "l2@[l1]") false false]

/-- The single set returned when un-inlining the target of c1WBase. -/
def c1WOut : DecisionSet := DecisionSet.mk
  [Decision.mk (CallSite.mk "A" "B" "l1") false true,
   Decision.mk (CallSite.mk "B" "C" "l2") false true]

/-- A two-decision set for the C10 witness. -/
def c10Set : DecisionSet := DecisionSet.mk
  [Decision.mk (CallSite.mk "A" "B" "l1") true false,
   Decision.mk (CallSite.mk "B" "C" "l2") false false]

/-- The two-decision base set of the C3 example: the target A to B at l1
already inlined, and A to C nested under it. -/
def c3Base : DecisionSet := DecisionSet.mk
  [Decision.mk (CallSite.mk "A" "B" "l1") true false,
   Decision.mk (CallSite.mk "A" "C" "l2@[l1]") false false]

/-- A base set with one binary disagreement after un-inlining the target:
the nested A to X decision un-nests to location l2, where it disagrees with
the A to Y decision. -/
def c4Base1 : DecisionSet := DecisionSet.mk
  [Decision.mk (CallSite.mk "A" "B" "l1") true false,
   Decision.mk (CallSite.mk "A" "X" "l2@[l1]") true false,
   Decision.mk (CallSite.mk "A" "Y" "l2") false false]

/-- A base set with two independent binary disagreements after un-inlining
the target (at locations l2 and l3). -/
def c4Base2 : DecisionSet := DecisionSet.mk
  [Decision.mk (CallSite.mk "A" "B" "l1") true false,
   Decision.mk (CallSite.mk "A" "X" "l2@[l1]") true false,
   Decision.mk (CallSite.mk "A" "Y" "l2") false false,
   Decision.mk (CallSite.mk "A" "Z" "l3@[l1]") false false,
   Decision.mk (CallSite.mk "A" "W" "l3") true false]

/-- The synthetic set of the C5 claim, exactly as the claim states it: a
direct decision A to C at location x next to the pair A to B at y and
B to C at x. -/
def c5ClaimSet : DecisionSet := DecisionSet.mk
  [Decision.mk (CallSite.mk "A" "B" "y") true false,
   Decision.mk (CallSite.mk "B" "C" "x") true false,
   Decision.mk (CallSite.mk "A" "C" "x") false false]

/-- The amended synthetic set: the redundant entry carries the composed
location, and a fourth decision textually references it. -/
def c5AmendedSet : DecisionSet := DecisionSet.mk
  [Decision.mk (CallSite.mk "A" "B" "y") true false,
   Decision.mk (CallSite.mk "B" "C" "x") true false,
   Decision.mk (CallSite.mk "A" "C" "x@[y]") false false,
   Decision.mk (CallSite.mk "Q" "R" "z@[x@[y]]") false false]

/-- A set with one unfixed and one fixed decision, all fields clean, for the
C7 round-trip witness. -/
def c7GoodSet : DecisionSet := DecisionSet.mk
  [Decision.mk (CallSite.mk "A" "B" "l1") true false,
   Decision.mk (CallSite.mk "B" "C" "l2@[l1]") false true]

/-- A set whose caller field contains a newline, for the C7 counterexample. -/
def c7BadSet : DecisionSet := DecisionSet.mk
  [Decision.mk (CallSite.mk "A\nB" "C" "l") true false]

/-- Base set for the C2 counterexample: the only decision whose caller is
the target callee comes before the target in the list. -/
def c2Base : DecisionSet := DecisionSet.mk
  [Decision.mk (CallSite.mk "B" "C" "l2") false false,
   Decision.mk (CallSite.mk "A" "B" "l1") false false]

/-- Base set for the C2 witness, with the target decision already replaced
by its fixed inlined form, as trickle_decision_change produces it right
before calling trickle_positive. -/
def c2WBase : DecisionSet := DecisionSet.mk
  [Decision.mk (CallSite.mk "A" "B" "l1") true true,
   Decision.mk (CallSite.mk "B" "C" "l2") false false]

/-- Base set for the C8 counterexample: an aliasing triple P to R to Q whose
composite entry P to Q is entirely unrelated to the flipped target. -/
def c8Base : DecisionSet := DecisionSet.mk
  [Decision.mk (CallSite.mk "A" "B" "l1") false false,
   Decision.mk (CallSite.mk "P" "R" "z") false false,
   Decision.mk (CallSite.mk "R" "Q" "y") false false,
   Decision.mk (CallSite.mk "P" "Q" "y@[z]") false false]

/-- The single set returned by the first (positive) trickle on c8Base: the
unaffected composite decision P to Q has already been dropped. -/
def c8Mid : DecisionSet := DecisionSet.mk
  [Decision.mk (CallSite.mk "A" "B" "l1") true true,
   Decision.mk (CallSite.mk "P" "R" "z") false false,
   Decision.mk (CallSite.mk "R" "Q" "y") false false]

/-- The single set returned by flipping the target back to false. -/
def c8Out : DecisionSet := DecisionSet.mk
  [Decision.mk (CallSite.mk "A" "B" "l1") false true,
   Decision.mk (CallSite.mk "P" "R" "z") false false,
   Decision.mk (CallSite.mk "R" "Q" "y") false false]

/-- Base set for the C8 witness: one unrelated decision next to the
target. -/
def c8WBase : DecisionSet := DecisionSet.mk
  [Decision.mk (CallSite.mk "A" "B" "l1") false false,
   Decision.mk (CallSite.mk "P" "Q" "z") true false]

/- ### Allocation-instrumented model for the aliasing claim

   Python object identity is modelled by tagging every Decision object with
   an allocation token: each expression of the source that constructs a new
   Decision object (Decision(...) in clone, replace_decision and the two
   trickle functions) draws a fresh token from a counter threaded through
   the functions.  Structural equality of the Python dataclass (used by
   list.index and list.remove) ignores the token.  Everything else mirrors
   the plain embedding above line by line.  -/

/-- A Decision object: the dataclass fields plus its allocation token. -/
structure IDecision where
  call_site : CallSite
  inlined : Bool
  modified : Bool
  tok : Nat
deriving DecidableEq, Repr

/-- Python dataclass equality: fields only, never the identity token. -/
def IDecision.sameVal (a b : IDecision) : Bool :=
  decide (a.call_site = b.call_site) && decide (a.inlined = b.inlined) &&
    decide (a.modified = b.modified)

/-- A DecisionSet over tagged decisions. -/
structure IDecisionSet where
  decisions : List IDecision
deriving DecidableEq, Repr

/-- Decision.clone allocates a new object. -/
def icloneList : List IDecision → Nat → List IDecision × Nat
  | [], c => ([], c)
  | d :: rest, c =>
    let d2 : IDecision := IDecision.mk d.call_site d.inlined d.modified c
    let (rest2, c2) := icloneList rest (c + 1)
    (d2 :: rest2, c2)

/-- DecisionSet.clone deep-copies every decision into fresh objects. -/
def IDecisionSet.iclone (s : IDecisionSet) (c : Nat) : IDecisionSet × Nat :=
  let (l, c2) := icloneList s.decisions c
  (IDecisionSet.mk l, c2)

/-- decision_for, on tagged decisions. -/
def IDecisionSet.idecision_for (s : IDecisionSet) (cs : CallSite) :
    Option IDecision :=
  s.decisions.find? (fun d => decide (d.call_site = cs))

/-- replace_decision: list.index by dataclass equality, then the slot gets a
freshly constructed Decision object. -/
def IDecisionSet.ireplace (s : IDecisionSet) (dec : IDecision)
    (cs : CallSite) (inl fixed : Bool) (c : Nat) :
    Option (IDecisionSet × Nat) :=
  match s.decisions.findIdx? (fun d => IDecision.sameVal d dec) with
  | none => none
  | some i =>
    some (IDecisionSet.mk (s.decisions.set i (IDecision.mk cs inl fixed c)),
      c + 1)

/-- list.remove by dataclass equality. -/
def iremoveFirst : List IDecision → IDecision → Option (List IDecision)
  | [], _ => none
  | x :: xs, d =>
    if IDecision.sameVal x d then some xs
    else (iremoveFirst xs d).map fun l => x :: l

def iremoveAll : List IDecision → List IDecision → Option (List IDecision)
  | decs, [] => some decs
  | decs, r :: rs =>
    match iremoveFirst decs r with
    | none => none
    | some decs2 => iremoveAll decs2 rs

/-- The duplicate-location scan on tagged decisions. -/
def findDupLocationI : List IDecision → List String → Option String
  | [], _ => none
  | d :: rest, seen =>
    if d.call_site.location ∈ seen then some d.call_site.location
    else findDupLocationI rest (d.call_site.location :: seen)

/-- The buildable-decision scan on tagged decisions. -/
def iscanBuildable : List IDecision → SeenMap → List IDecision
  | [], _ => []
  | d :: rest, seen =>
    let hit := existsBuild seen d.call_site.caller d.call_site.callee
        d.call_site.location
    let seen2 := seenInsert d.call_site.caller d.call_site.callee
        d.call_site.location seen
    if hit then d :: iscanBuildable rest seen2 else iscanBuildable rest seen2

/-- The removal phase on tagged decisions. -/
def iremovalPhase : List IDecision → List IDecision → Option (List IDecision)
  | decs, [] => some decs
  | decs, d :: rest =>
    let referenced := decs.filter fun dd =>
      containsStr ("@[" ++ d.call_site.location ++ "]") dd.call_site.location
    match iremoveFirst decs d with
    | none => none
    | some decs1 =>
      match iremoveAll decs1 referenced with
      | none => none
      | some decs2 => iremovalPhase decs2 rest

/-- remove_implicit_duplicates on tagged decisions: removes objects, never
allocates. -/
def IDecisionSet.iremove_implicit_duplicates (s : IDecisionSet) :
    Option IDecisionSet :=
  (iremovalPhase s.decisions (iscanBuildable s.decisions [])).map
    IDecisionSet.mk

/-- Stable insertion by nesting depth, on tagged decisions. -/
def iinsertSorted (d : IDecision) : List IDecision → List IDecision
  | [] => [d]
  | x :: xs =>
    if countAt x.call_site.location ≤ countAt d.call_site.location then
      x :: iinsertSorted d xs
    else d :: x :: xs

def isortByDepth (l : List IDecision) : List IDecision :=
  l.foldl (fun acc d => iinsertSorted d acc) []

def iinsertAt (l : List IDecision) (n : Nat) (d : IDecision) :
    List IDecision :=
  l.take n ++ d :: l.drop n

/-- The synthesized nested decisions of trickle_positive, one fresh object
per referenced decision. -/
def isynthList (td : IDecision) : List IDecision → Nat →
    List IDecision × Nat
  | [], c => ([], c)
  | d :: rest, c =>
    let nd : IDecision := IDecision.mk
      (CallSite.mk td.call_site.caller d.call_site.callee
        (buildLoc ((splitChain td.call_site.location).reverse ++
          (splitChain d.call_site.location).reverse)))
      d.inlined true c
    let (rest2, c2) := isynthList td rest (c + 1)
    (nd :: rest2, c2)

/-- trickle_positive on tagged decisions. -/
def itrickle_positive (decisions : IDecisionSet) (td : IDecision)
    (c : Nat) : Option (List IDecisionSet × Nat) :=
  if !td.inlined then none
  else
    match decisions.decisions.findIdx? (fun d => IDecision.sameVal d td) with
    | none => none
    | some trickle_idx =>
      let referenced := (decisions.decisions.drop trickle_idx).filter
        fun d => decide (d.call_site.caller = td.call_site.callee)
      let (new_decisions, c2) := isynthList td referenced c
      let sorted := isortByDepth new_decisions
      let spliced := (sorted.foldl
        (fun (p : List IDecision × Nat) d => (iinsertAt p.1 p.2 d, p.2 + 1))
        (decisions.decisions, trickle_idx + 1)).1
      some ([IDecisionSet.mk spliced], c2)

/-- The dependant-decision filter of trickle_negative, tagged version. -/
def idependantsOf (ds : IDecisionSet) (upd : IDecision) : List IDecision :=
  ds.decisions.filter fun d =>
    containsStr ("@[" ++ upd.call_site.location ++ "]") d.call_site.location

/-- The rewritten call site of a dependant decision, tagged version. -/
def irewriteTarget (upd dd : IDecision) : CallSite :=
  CallSite.mk upd.call_site.callee dd.call_site.callee
    (String.mk (replaceAllL ("@[" ++ upd.call_site.location ++ "]").data
      dd.call_site.location.data))

/-- The replacement loop of trickle_negative, one fresh object per
replacement. -/
def iapplyReplacements : IDecisionSet → List (IDecision × CallSite) → Nat →
    Option (IDecisionSet × Nat)
  | ds, [], c => some (ds, c)
  | ds, (d, cs) :: rest, c =>
    match ds.ireplace d cs d.inlined true c with
    | none => none
    | some (ds2, c2) => iapplyReplacements ds2 rest c2

mutual

/-- trickle_negative on tagged decisions: the mid-function clone allocates
fresh objects for the whole set before the replacements are applied. -/
def itrickle_negative : Nat → IDecisionSet → IDecision → Nat →
    Option (List IDecisionSet × Nat)
  | 0, _, _, _ => none
  | fuel + 1, decisions, upd, c =>
    let deps := idependantsOf decisions upd
    let new_call_sites := deps.map fun dd => (dd, irewriteTarget upd dd)
    let (cloned, c2) := decisions.iclone c
    match iapplyReplacements cloned new_call_sites c2 with
    | none => none
    | some (ds2, c3) => itrickleNegLoop fuel [ds2] c3

/-- The while-loop of trickle_negative, tagged version. -/
def itrickleNegLoop : Nat → List IDecisionSet → Nat →
    Option (List IDecisionSet × Nat)
  | 0, _, _ => none
  | fuel + 1, sets, c =>
    match iprocessPass fuel sets c with
    | none => none
    | some (sets2, newSets, anyConf, c2) =>
      if anyConf then itrickleNegLoop fuel (sets2 ++ newSets) c2
      else some (sets2, c2)

/-- One pass of the while-loop, tagged version: the split branch clones the
deduplicated set before the two one-sided removals. -/
def iprocessPass : Nat → List IDecisionSet → Nat →
    Option (List IDecisionSet × List IDecisionSet × Bool × Nat)
  | _, [], c => some ([], [], false, c)
  | 0, _ :: _, _ => none
  | fuel + 1, ds :: rest, c =>
    match findDupLocationI ds.decisions [] with
    | none =>
      match iprocessPass fuel rest c with
      | none => none
      | some (rest2, news, conf, c2) => some (ds :: rest2, news, conf, c2)
    | some loc =>
      let confl := ds.decisions.filter
        fun d => decide (d.call_site.location = loc)
      let inl := confl.filter fun d => d.inlined
      let ninl := confl.filter fun d => !d.inlined
      match iremoveAll ds.decisions (inl.drop 1 ++ ninl.drop 1) with
      | none => none
      | some decs1 =>
        match inl, ninl with
        | i0 :: _, n0 :: _ =>
          let (newDs, c2) := (IDecisionSet.mk decs1).iclone c
          match iremoveFirst decs1 n0, iremoveFirst newDs.decisions i0 with
          | some keepInl, some keepNinl =>
            match itrickle_negative fuel (IDecisionSet.mk keepNinl) n0 c2 with
            | none => none
            | some (subSets, c3) =>
              match iprocessPass fuel rest c3 with
              | none => none
              | some (rest2, news, _, c4) =>
                some (IDecisionSet.mk keepInl :: rest2, subSets ++ news,
                  true, c4)
          | _, _ => none
        | _, _ =>
          match iprocessPass fuel rest c with
          | none => none
          | some (rest2, news, _, c2) =>
            some (IDecisionSet.mk decs1 :: rest2, news, true, c2)

end

/-- The cleanup loop over the returned sets, tagged version. -/
def imapRemoveDups : List IDecisionSet → Option (List IDecisionSet)
  | [] => some []
  | s :: rest =>
    match s.iremove_implicit_duplicates with
    | none => none
    | some s2 =>
      match imapRemoveDups rest with
      | none => none
      | some rest2 => some (s2 :: rest2)

/-- trickle_decision_change on tagged decisions: the entry clone gives the
working set fresh objects before anything else happens. -/
def itrickle_decision_change (fuel : Nat) (og_decisions : IDecisionSet)
    (call_site : CallSite) (inlined : Bool) (c : Nat) :
    Option (List IDecisionSet × Nat) :=
  let (decisions, c1) := og_decisions.iclone c
  match decisions.idecision_for call_site with
  | none => none
  | some og_decision =>
    match decisions.ireplace og_decision call_site inlined true c1 with
    | none => none
    | some (ds2, c2) =>
      match ds2.idecision_for call_site with
      | none => none
      | some updated_decision =>
        match (if inlined then itrickle_positive ds2 updated_decision c2
               else itrickle_negative fuel ds2 updated_decision c2) with
        | none => none
        | some (final, c3) =>
          match imapRemoveDups final with
          | none => none
          | some final2 => some (final2, c3)

/-- Concrete base set for the allocation-freshness example: two decisions
tagged with tokens 0 and 1, counter starting at 2. -/
def c9Base : IDecisionSet := IDecisionSet.mk
  [IDecision.mk (CallSite.mk "A" "B" "l1") false false 0,
   IDecision.mk (CallSite.mk "B" "C" "l2") false false 1]

/-- The sets returned by the instrumented pipeline on c9Base: every decision
carries a token allocated during the call. -/
def c9Out : List IDecisionSet :=
  [IDecisionSet.mk
    [IDecision.mk (CallSite.mk "A" "B" "l1") true true 4,
     IDecision.mk (CallSite.mk "A" "C" "l2@[l1]") false true 5,
     IDecision.mk (CallSite.mk "B" "C" "l2") false false 3]]

/- ### Basic lemmas -/

theorem Decision.clone_self (d : Decision) : d.clone = d := by
  cases d; rfl

theorem DecisionSet.cloneSet_self (s : DecisionSet) : s.clone = s := by
  cases s with
  | mk l =>
    unfold DecisionSet.clone
    congr 1
    induction l with
    | nil => rfl
    | cons d rest ih => simp [ih, Decision.clone_self]

theorem findDupLocation_none_iff (l : List Decision) (seen : List String) :
    findDupLocation l seen = none ↔
      ((l.map fun d => d.call_site.location).Nodup ∧
        ∀ d ∈ l, d.call_site.location ∉ seen) := by
  induction l generalizing seen with
  | nil => simp [findDupLocation]
  | cons d rest ih =>
    rw [findDupLocation]
    by_cases h : d.call_site.location ∈ seen
    · simp only [if_pos h]
      constructor
      · intro hc; exact absurd hc (by simp)
      · rintro ⟨-, hall⟩
        exact absurd h (hall d (List.mem_cons_self d rest))
    · simp only [if_neg h]
      rw [ih]
      constructor
      · rintro ⟨hnd, hall⟩
        constructor
        · rw [List.map_cons, List.nodup_cons]
          refine ⟨?_, hnd⟩
          intro hm
          rcases List.mem_map.1 hm with ⟨x, hx, hex⟩
          exact (hall x hx) (by rw [hex]; exact List.mem_cons_self _ _)
        · intro x hx
          rcases List.mem_cons.1 hx with hx | hx
          · subst hx; exact h
          · intro hs
            exact (hall x hx) (List.mem_cons_of_mem _ hs)
      · rintro ⟨hnd2, hall2⟩
        rw [List.map_cons, List.nodup_cons] at hnd2
        refine ⟨hnd2.2, ?_⟩
        intro x hx hmem
        rcases List.mem_cons.1 hmem with hmem | hmem
        · exact hnd2.1 (List.mem_map.2 ⟨x, hx, hmem⟩)
        · exact hall2 x (List.mem_cons_of_mem _ hx) hmem

theorem get_next_conflicting_none_iff (s : DecisionSet) :
    s.get_next_conflicting_decisions = none ↔
      (s.decisions.map fun d => d.call_site.location).Nodup := by
  have hstep : s.get_next_conflicting_decisions = none ↔
      findDupLocation s.decisions [] = none := by
    cases hfd : findDupLocation s.decisions [] <;>
      simp [DecisionSet.get_next_conflicting_decisions, hfd]
  rw [hstep, findDupLocation_none_iff]
  simp

theorem removeFirst_sublist :
    ∀ (l : List Decision) (d : Decision) (l2 : List Decision),
      removeFirst l d = some l2 → l2.Sublist l := by
  intro l
  induction l with
  | nil => intro d l2 h; simp [removeFirst] at h
  | cons x xs ih =>
    intro d l2 h
    rw [removeFirst] at h
    by_cases hx : x = d
    · simp only [if_pos hx] at h
      cases h
      exact List.sublist_cons_self x xs
    · simp only [if_neg hx] at h
      cases hre : removeFirst xs d with
      | none => rw [hre] at h; simp at h
      | some l3 =>
        rw [hre] at h
        simp at h
        subst h
        exact (ih d l3 hre).cons₂ x

theorem removeAll_sublist :
    ∀ (rs l l2 : List Decision), removeAll l rs = some l2 → l2.Sublist l := by
  intro rs
  induction rs with
  | nil => intro l l2 h; rw [removeAll] at h; cases h; exact List.Sublist.refl _
  | cons r rest ih =>
    intro l l2 h
    rw [removeAll] at h
    cases hrf : removeFirst l r with
    | none => rw [hrf] at h; simp at h
    | some l3 =>
      rw [hrf] at h
      exact (ih l3 l2 h).trans (removeFirst_sublist l r l3 hrf)

theorem removalPhase_sublist :
    ∀ (bs l l2 : List Decision), removalPhase l bs = some l2 → l2.Sublist l := by
  intro bs
  induction bs with
  | nil => intro l l2 h; rw [removalPhase] at h; cases h; exact List.Sublist.refl _
  | cons b rest ih =>
    intro l l2 h
    rw [removalPhase] at h
    split at h
    · simp at h
    · rename_i l3 hrf
      split at h
      · simp at h
      · rename_i l4 hra
        exact ((ih l4 l2 h).trans (removeAll_sublist _ l3 l4 hra)).trans
          (removeFirst_sublist l b l3 hrf)

theorem remove_implicit_duplicates_sublist (s s2 : DecisionSet)
    (h : s.remove_implicit_duplicates = some s2) :
    s2.decisions.Sublist s.decisions := by
  unfold DecisionSet.remove_implicit_duplicates at h
  cases hrp : removalPhase s.decisions (scanBuildable s.decisions []) with
  | none => rw [hrp] at h; simp at h
  | some l2 =>
    rw [hrp] at h
    simp at h
    subst h
    exact removalPhase_sublist _ _ _ hrp

/-- After a pass that saw no conflict, the sets are unchanged, no split-off
set was produced, and every set is conflict-free. -/
theorem processPass_false :
    ∀ (sets : List DecisionSet) (fuel : Nat) (sets2 news : List DecisionSet),
      processPass fuel sets = some (sets2, news, false) →
      sets2 = sets ∧ news = [] ∧
        ∀ s ∈ sets, s.get_next_conflicting_decisions = none := by
  intro sets
  induction sets with
  | nil =>
    intro fuel sets2 news h
    unfold processPass at h
    simp at h
    exact ⟨h.1, h.2, by simp⟩
  | cons ds rest ih =>
    intro fuel sets2 news h
    cases fuel with
    | zero => unfold processPass at h; simp at h
    | succ fuel => ?_
    unfold processPass at h
    split at h
    · rename_i hgn
      split at h
      · simp at h
      · rename_i rest2 news1 conf hpp
        simp only [Option.some.injEq, Prod.mk.injEq] at h
        obtain ⟨h1, h2, h3⟩ := h
        obtain ⟨hr, hn, hall2⟩ := ih fuel rest2 news1 (by rw [hpp, h3])
        refine ⟨?_, ?_, ?_⟩
        · rw [← h1, hr]
        · rw [← h2, hn]
        · intro s hs
          rcases List.mem_cons.1 hs with hs | hs
          · subst hs; exact hgn
          · exact hall2 s hs
    · exfalso
      simp only [] at h
      repeat' split at h
      all_goals simp at h

/-- Every set in a successful outcome of the conflict-resolution loop is
conflict-free. -/
theorem trickleNegLoop_post :
    ∀ (fuel : Nat) (sets out : List DecisionSet),
      trickleNegLoop fuel sets = some out →
      ∀ s ∈ out, s.get_next_conflicting_decisions = none := by
  intro fuel
  induction fuel with
  | zero =>
    intro sets out h
    unfold trickleNegLoop at h
    simp at h
  | succ fuel ih =>
    intro sets out h
    unfold trickleNegLoop at h
    split at h
    · simp at h
    · rename_i sets2 news conf hpp
      split at h
      · exact ih _ _ h
      · rename_i hconf
        simp only [Option.some.injEq] at h
        subst h
        have hfalse : conf = false := by
          cases conf
          · rfl
          · exact absurd rfl hconf
        subst hfalse
        obtain ⟨hs2, -, hall⟩ := processPass_false sets fuel sets2 news hpp
        subst hs2
        exact hall

/-- Every set returned by trickle_negative is conflict-free. -/
theorem trickle_negative_post :
    ∀ (fuel : Nat) (ds : DecisionSet) (upd : Decision)
      (out : List DecisionSet),
      trickle_negative fuel ds upd = some out →
      ∀ s ∈ out, s.get_next_conflicting_decisions = none := by
  intro fuel ds upd out h
  cases fuel with
  | zero =>
    unfold trickle_negative at h
    simp at h
  | succ fuel =>
    unfold trickle_negative at h
    simp only [] at h
    split at h
    · simp at h
    · exact trickleNegLoop_post _ _ _ h

/-- remove_implicit_duplicates only removes decisions, so the final cleanup
loop of trickle_decision_change preserves conflict-freeness. -/
theorem mapRemoveDups_conflict_free :
    ∀ (sets out : List DecisionSet),
      mapRemoveDups sets = some out →
      (∀ s ∈ sets, s.get_next_conflicting_decisions = none) →
      ∀ s ∈ out, s.get_next_conflicting_decisions = none := by
  intro sets
  induction sets with
  | nil =>
    intro out h hall
    unfold mapRemoveDups at h
    simp at h
    subst h
    simp
  | cons s0 rest ih =>
    intro out h hall
    unfold mapRemoveDups at h
    cases hrid : s0.remove_implicit_duplicates with
    | none => rw [hrid] at h; simp at h
    | some s2 =>
      rw [hrid] at h
      cases hmap : mapRemoveDups rest with
      | none => rw [hmap] at h; simp at h
      | some rest2 =>
        rw [hmap] at h
        simp only [Option.some.injEq] at h
        subst h
        intro s hs
        rcases List.mem_cons.1 hs with hs | hs
        · rw [hs]
          rw [get_next_conflicting_none_iff]
          have hsub := (remove_implicit_duplicates_sublist s0 s2 hrid).map
            fun d => d.call_site.location
          exact List.Nodup.sublist hsub
            ((get_next_conflicting_none_iff s0).1
              (hall s0 (List.mem_cons_self _ _)))
        · exact (ih rest2 hmap
            (fun x hx => hall x (List.mem_cons_of_mem _ hx))) s hs

/- ### Lemmas on the location composer and decomposer -/

/-- scanBase walks past characters that are not at signs and stops exactly at
the appended boundary. -/
theorem scanBase_through (l : List Char) (hl : ∀ c ∈ l, c ≠ '@') :
    ∀ r, scanBase (l ++ '@' :: '[' :: r) = some (l, r) := by
  induction l with
  | nil =>
    intro r
    rw [List.nil_append, scanBase]
    simp [isPrefixL]
  | cons c cs ih =>
    intro r
    have hc : c ≠ '@' := hl c (List.mem_cons_self c cs)
    rw [List.cons_append, scanBase]
    have hcond : (decide (c = '@') && isPrefixL ['['] (cs ++ '@' :: '[' :: r)) =
        false := by
      simp [hc]
    rw [hcond]
    simp only [Bool.false_eq_true, if_false]
    rw [ih (fun x hx => hl x (List.mem_cons_of_mem _ hx)) r]
    rfl

/-- Unfolding lemma for matchBracket on a nonempty list. -/
theorem matchBracket_cons (c : Char) (rest : List Char) (d : Nat) :
    matchBracket (c :: rest) d =
      if c = ']' then
        match d with
        | 0 => some ([], rest)
        | d + 1 => (matchBracket rest d).map fun p => (c :: p.1, p.2)
      else if c = '[' then
        (matchBracket rest (d + 1)).map fun p => (c :: p.1, p.2)
      else (matchBracket rest d).map fun p => (c :: p.1, p.2) := rfl

/-- matchBracket walks past a bracketless segment without changing depth. -/
theorem matchBracket_through_flat (l : List Char)
    (hl : ∀ c ∈ l, c ≠ '[' ∧ c ≠ ']') :
    ∀ (d : Nat) (r : List Char),
      matchBracket (l ++ r) d =
        (matchBracket r d).map fun p => (l ++ p.1, p.2) := by
  induction l with
  | nil =>
    intro d r
    cases hm : matchBracket r d <;> simp [hm]
  | cons c cs ih =>
    intro d r
    have hc := hl c (List.mem_cons_self c cs)
    rw [List.cons_append, matchBracket_cons, if_neg hc.2, if_neg hc.1,
      ih (fun x hx => hl x (List.mem_cons_of_mem _ hx)) d r]
    cases hm : matchBracket r d <;> simp [hm]

/-- matchBracket walks past a whole serialized location key without changing
depth: every right bracket inside it is matched by an earlier left bracket
of the key itself. -/
theorem matchBracket_through_key :
    ∀ (chain : List String), (∀ l ∈ chain, isRawLoc l) →
      ∀ (d : Nat) (r : List Char),
        matchBracket ((serializeChain chain).data ++ r) d =
          (matchBracket r d).map
            fun p => ((serializeChain chain).data ++ p.1, p.2) := by
  intro chain
  induction chain with
  | nil =>
    intro _ d r
    show matchBracket (("" : String).data ++ r) d = _
    cases hm : matchBracket r d <;> simp [hm, serializeChain]
  | cons x rest ih =>
    intro hraw d r
    cases rest with
    | nil =>
      apply matchBracket_through_flat
      intro c hc
      have h3 := hraw x (List.mem_cons_self x []) c hc
      exact ⟨h3.2.1, h3.2.2⟩
    | cons y rest2 =>
      have hkey : (serializeChain (x :: y :: rest2)).data =
          x.data ++ '@' :: '[' ::
            ((serializeChain (y :: rest2)).data ++ [']']) := by
        show (x ++ "@[" ++ serializeChain (y :: rest2) ++ "]").data = _
        simp [String.data_append]
      rw [hkey]
      have hxflat : ∀ c ∈ x.data, c ≠ '[' ∧ c ≠ ']' := by
        intro c hc
        have h3 := hraw x (List.mem_cons_self x _) c hc
        exact ⟨h3.2.1, h3.2.2⟩
      rw [List.append_assoc,
        matchBracket_through_flat x.data hxflat d _]
      rw [show ('@' :: '[' :: ((serializeChain (y :: rest2)).data ++ [']'])) ++ r
          = '@' :: '[' :: ((serializeChain (y :: rest2)).data ++ (']' :: r))
        from by simp]
      rw [matchBracket_cons, if_neg (by decide), if_neg (by decide)]
      rw [matchBracket_cons, if_neg (by decide), if_pos (by rfl)]
      rw [ih (fun l hl => hraw l (List.mem_cons_of_mem _ hl)) (d + 1) (']' :: r)]
      rw [show matchBracket (']' :: r) (d + 1) =
          (matchBracket r d).map fun p => (']' :: p.1, p.2) from by
        rw [matchBracket_cons, if_pos (by rfl)]]
      cases hm : matchBracket r d <;> simp [hm]

/- ### Claim C1 -/

/-- Claim C1, counterexample: flipping the target to inlined true on a
conflict-free base can return a DecisionSet on which
get_next_conflicting_decisions is not none — the synthesized decision for
the newly nested call site duplicates the location of an existing decision
and remove_implicit_duplicates does not remove it, so the claim fails for
the flip value true. -/
theorem c1_counterexample :
    (trickle_decision_change 9 c1Base (CallSite.mk "A" "B" "l1") true).map
      (List.map DecisionSet.get_next_conflicting_decisions) =
    some [some
      [Decision.mk (CallSite.mk "A" "C" "l2@[l1]") false true,
       Decision.mk (CallSite.mk "X" "Y" "l2@[l1]") false false]] := by
  decide

/-- Claim C1 (amended): for every base DecisionSet, target call site and
fuel, when the flipped value is false, every DecisionSet returned by the
trickle entry point trickle_decision_change is conflict-free:
get_next_conflicting_decisions returns none on each returned set. -/
theorem c1_trickle_negative_conflict_free (fuel : Nat) (base : DecisionSet)
    (cs : CallSite) (out : List DecisionSet)
    (h : trickle_decision_change fuel base cs false = some out) :
    ∀ s ∈ out, s.get_next_conflicting_decisions = none := by
  unfold trickle_decision_change at h
  simp only [Bool.false_eq_true, if_false] at h
  split at h
  · simp at h
  · rename_i og hog
    split at h
    · simp at h
    · rename_i ds2 hrep
      split at h
      · simp at h
      · rename_i upd hupd
        split at h
        · simp at h
        · rename_i final hneg
          exact mapRemoveDups_conflict_free final out h
            (trickle_negative_post fuel ds2 upd final hneg)

/-- Witness for the amended C1 at a concrete input. -/
theorem c1_witness : c1WOut.get_next_conflicting_decisions = none :=
  c1_trickle_negative_conflict_free 9 c1WBase (CallSite.mk "A" "B" "l1")
    [c1WOut] (by decide) c1WOut (by decide)

/- ### Claim C10 -/

/-- Python list.index by way of findIdx?: when the element at position i is
the target and no earlier element equals it, findIdx? returns i. -/
theorem findIdx_first_eq :
    ∀ (l : List Decision) (d : Decision) (i : Nat),
      l[i]? = some d → (∀ j, j < i → l[j]? ≠ some d) →
      l.findIdx? (fun x => decide (x = d)) = some i := by
  intro l
  induction l with
  | nil => intro d i hi _; simp at hi
  | cons x xs ih =>
    intro d i hi hearly
    cases i with
    | zero =>
      simp at hi
      subst hi
      simp [List.findIdx?_cons]
    | succ i =>
      have hx : ¬ (x = d) := by
        intro hxd
        exact hearly 0 (Nat.succ_pos i) (by simp [hxd])
      rw [List.findIdx?_cons, if_neg (by simp [hx])]
      have hrec := ih d i (by simpa using hi) (fun j hj => by
        have h2 := hearly (j + 1) (Nat.succ_lt_succ hj)
        simpa using h2)
      rw [List.findIdx?_succ, hrec]
      rfl

/-- Claim C10: for a Decision occurring at position i of a DecisionSet with
no earlier structurally equal element, replace_decision succeeds, keeps the
length, overwrites exactly position i with the freshly built Decision, and
leaves every other position unchanged. -/
theorem c10_replace_decision_frame (s : DecisionSet) (d : Decision)
    (cs : CallSite) (inl fixed : Bool) (i : Nat)
    (hi : s.decisions[i]? = some d)
    (hearly : ∀ j, j < i → s.decisions[j]? ≠ some d) :
    ∃ s2, s.replace_decision d cs inl fixed = some s2 ∧
      s2.decisions.length = s.decisions.length ∧
      s2.decisions[i]? = some (Decision.mk cs inl fixed) ∧
      ∀ j, j ≠ i → s2.decisions[j]? = s.decisions[j]? := by
  have hfind := findIdx_first_eq s.decisions d i hi hearly
  refine ⟨DecisionSet.mk (s.decisions.set i (Decision.mk cs inl fixed)),
    ?_, ?_, ?_, ?_⟩
  · unfold DecisionSet.replace_decision
    rw [hfind]
  · exact List.length_set s.decisions i _
  · have hlen : i < s.decisions.length := by
      by_contra hig
      push_neg at hig
      rw [List.getElem?_eq_none hig] at hi
      simp at hi
    simp [List.getElem?_set_self, hlen]
  · intro j hj
    exact List.getElem?_set_ne (fun hij => hj hij.symm)

/-- Witness for C10 at a concrete input: replacing the second decision. -/
theorem c10_witness :
    ∃ s2, c10Set.replace_decision
        (Decision.mk (CallSite.mk "B" "C" "l2") false false)
        (CallSite.mk "B" "C" "l2") true true = some s2 ∧
      s2.decisions.length = c10Set.decisions.length ∧
      s2.decisions[1]? =
        some (Decision.mk (CallSite.mk "B" "C" "l2") true true) ∧
      ∀ j, j ≠ 1 → s2.decisions[j]? = c10Set.decisions[j]? :=
  c10_replace_decision_frame c10Set
    (Decision.mk (CallSite.mk "B" "C" "l2") false false)
    (CallSite.mk "B" "C" "l2") true true 1 (by decide)
    (fun j hj => by
      have hj0 : j = 0 := Nat.lt_one_iff.1 hj
      subst hj0
      decide)

/- ### Claim C3 -/

/-- Claim C3: trickling A to B at l1 to inlined false on c3Base returns
exactly one DecisionSet in which the nested decision is rewritten to caller
B, callee C, location l2 with outcome F, with no conflict or split. -/
theorem c3_example_negative_rebase :
    trickle_decision_change 9 c3Base (CallSite.mk "A" "B" "l1") false =
    some [DecisionSet.mk
      [Decision.mk (CallSite.mk "A" "B" "l1") false true,
       Decision.mk (CallSite.mk "B" "C" "l2") false true]] := by
  decide

/- ### Claim C4 -/

/-- Claim C4: with k = 1 independent binary disagreement the trickle
returns exactly two DecisionSets (each keeping one of the two outcomes at
the shared location, the other side trickled away), and with k = 2 it
returns exactly four. -/
theorem c4_split_counts :
    (trickle_decision_change 20 c4Base1 (CallSite.mk "A" "B" "l1") false =
      some
        [DecisionSet.mk
          [Decision.mk (CallSite.mk "A" "B" "l1") false true,
           Decision.mk (CallSite.mk "B" "X" "l2") true true],
         DecisionSet.mk
          [Decision.mk (CallSite.mk "A" "B" "l1") false true,
           Decision.mk (CallSite.mk "A" "Y" "l2") false false]]) ∧
    ((trickle_decision_change 40 c4Base2 (CallSite.mk "A" "B" "l1") false).map
      List.length = some 4) := by
  constructor
  · decide
  · decide

/- ### Claim C5 -/

/-- Claim C5, counterexample: on the set the claim describes, with the
direct entry at location x, remove_implicit_duplicates removes nothing at
all — the redundancy check compares the direct entry's location against the
combination of the two edge locations, which is the composite string
x at-bracket y, not x. -/
theorem c5_counterexample :
    c5ClaimSet.remove_implicit_duplicates = some c5ClaimSet := by
  decide

/-- Claim C5 (amended): when the redundant entry's location is the
composition of the two recorded edges (x at-bracket y) and the pair
precedes it, remove_implicit_duplicates drops that composite entry together
with every decision whose location textually references it, while both
edges of the aliasing pair are kept. -/
theorem c5_implicit_duplicate_removal :
    c5AmendedSet.remove_implicit_duplicates =
    some (DecisionSet.mk
      [Decision.mk (CallSite.mk "A" "B" "y") true false,
       Decision.mk (CallSite.mk "B" "C" "x") true false]) := by
  decide

/- ### Claim C6 -/

/-- Claim C6, counterexample: for the location-key pair with composite inner
key a at-bracket b and raw outer key c, composing and then decomposing does
not recover the pair — the composed string has two top-level bracket
groups, so the decomposition of the first boundary leaves trailing
characters and fails as malformed. -/
theorem c6_counterexample :
    decompose (compose "a@[b]" "c") = none ∧
    compose "a@[b]" "c" = "a@[b]@[c]" ∧
    decompose (compose "a@[b]" "c") ≠ some ("a@[b]", some "c") := by
  refine ⟨by decide, by decide, ?_⟩
  intro hcontra
  rw [(by decide : decompose (compose "a@[b]" "c") = none)] at hcontra
  exact Option.noConfusion hcontra

/-- Claim C6 (amended): for every raw inner location (no at sign or
brackets) and every well-formed outer location key, decomposing the
composition recovers exactly the pair: decompose (compose inner outer) =
(inner, some outer). -/
theorem c6_compose_decompose_roundtrip (inner outer : String)
    (h1 : isRawLoc inner) (h2 : IsLocationKey outer) :
    decompose (compose inner outer) = some (inner, some outer) := by
  obtain ⟨chain, hne, hraw, hout⟩ := h2
  unfold decompose compose
  have hdata : (inner ++ "@[" ++ outer ++ "]").data =
      inner.data ++ '@' :: '[' :: (outer.data ++ [']']) := by
    simp [String.data_append]
  rw [hdata, scanBase_through inner.data (fun c hc => (h1 c hc).1) _]
  have hmb : matchBracket (outer.data ++ [']']) 0 = some (outer.data, []) := by
    rw [hout, matchBracket_through_key chain hraw 0 [']']]
    rw [show matchBracket [']'] 0 = some ([], []) from rfl]
    simp
  simp only [hmb]
  rfl

/-- Witness for the amended C6 at a concrete pair of keys. -/
theorem c6_witness : decompose (compose "l2" "l1") = some ("l2", some "l1") :=
  c6_compose_decompose_roundtrip "l2" "l1" (by decide)
    ⟨["l1"], by decide, by decide, by decide⟩

/- ### Claim C7 -/

theorem data_newline : ("\n" : String).data = ['\n'] := rfl

theorem data_lparen : ("(" : String).data = ['('] := rfl

theorem data_lbrack : ("[" : String).data = ['['] := rfl

theorem data_rparen : (")" : String).data = [')'] := rfl

theorem data_rbrack : ("]" : String).data = [']'] := rfl

theorem data_letterT : ("T" : String).data = ['T'] := rfl

theorem data_letterF : ("F" : String).data = ['F'] := rfl

theorem data_colon : (" : " : String).data = [' ', ':', ' '] := rfl

theorem quoteS_data : quoteS.data = [qc] := rfl

theorem delimCallee_eq : delimCallee = qc :: (", callee=".data ++ [qc]) := rfl

theorem delimLoc_eq : delimLoc = qc :: (", location=".data ++ [qc]) := rfl

theorem delimClose_eq : delimClose = qc :: ") : ".data := rfl

theorem data_close : (") : " : String).data = [')', ' ', ':', ' '] := rfl

/-- The character list of one serialized decision line. -/
theorem lineStr_data (d : Decision) :
    d.lineStr.data =
      (if d.modified then '[' else '(') ::
        (hdrChars ++ (d.call_site.caller.data ++ (delimCallee ++
          (d.call_site.callee.data ++ (delimLoc ++
          (d.call_site.location.data ++ (delimClose ++
          [(if d.inlined then 'T' else 'F'),
           (if d.modified then ']' else ')')]))))))) := by
  obtain ⟨⟨caller, callee, loc⟩, inl, md⟩ := d
  cases inl <;> cases md <;>
    simp [Decision.lineStr, callSiteRepr, String.data_append, hdrChars,
      delimCallee, delimLoc, delimClose, quoteS_data, data_lparen,
      data_lbrack, data_rparen, data_rbrack, data_letterT, data_letterF,
      data_colon, data_close]

/-- A serialized line contains no newline when the fields are clean. -/
theorem noNL_lineStr (d : Decision) (hd : cleanDecision d) :
    '\n' ∉ d.lineStr.data := by
  obtain ⟨⟨-, hc1⟩, ⟨-, hc2⟩, ⟨-, hc3⟩⟩ := hd
  rw [lineStr_data]
  intro hmem
  rcases List.mem_cons.1 hmem with h | h
  · split at h <;> exact absurd h (by decide)
  · simp only [List.mem_append, List.mem_cons, List.mem_singleton] at h
    rcases h with h | h | h | h | h | h | h | h
    · exact absurd h (by decide)
    · exact hc1 h
    · exact absurd h (by decide)
    · exact hc2 h
    · exact absurd h (by decide)
    · exact hc3 h
    · exact absurd h (by decide)
    · rcases h with h | h <;> (split at h <;> exact absurd h (by decide))

/-- isPrefixL holds for a list against itself with anything appended. -/
theorem isPrefixL_self_append :
    ∀ (l r : List Char), isPrefixL l (l ++ r) = true := by
  intro l r
  induction l with
  | nil => rfl
  | cons c cs ih => simp [isPrefixL, ih]

theorem stripPrefixL_append (pat r : List Char) :
    stripPrefixL pat (pat ++ r) = some r := by
  unfold stripPrefixL
  rw [if_pos (isPrefixL_self_append pat r), List.drop_left]

/-- splitOnce recovers a quote-free field followed by a quote-led
delimiter. -/
theorem splitOnce_exact :
    ∀ (field dtail rest : List Char), (∀ c ∈ field, c ≠ qc) →
      splitOnce (qc :: dtail) (field ++ ((qc :: dtail) ++ rest)) =
        some (field, rest) := by
  intro field
  induction field with
  | nil =>
    intro dtail rest _
    rw [List.nil_append]
    rw [show (qc :: dtail) ++ rest = qc :: (dtail ++ rest) from rfl]
    rw [splitOnce]
    rw [if_pos (by
      rw [show qc :: (dtail ++ rest) = (qc :: dtail) ++ rest from rfl]
      exact isPrefixL_self_append _ _)]
    rw [show qc :: (dtail ++ rest) = (qc :: dtail) ++ rest from rfl,
      List.drop_left]
  | cons c f ih =>
    intro dtail rest hc
    have hcq : c ≠ qc := hc c (List.mem_cons_self c f)
    rw [List.cons_append, splitOnce]
    rw [if_neg (by simp [isPrefixL, Ne.symm hcq])]
    rw [ih dtail rest (fun x hx => hc x (List.mem_cons_of_mem _ hx))]
    rfl

/-- The regex-shaped parser recovers the serialized fields from one line
with a trailing newline, for any bracket letters and quote-free fields. -/
theorem parseLine_generic (b t cl : Char) (caller callee loc : String)
    (hb : b = '(' ∨ b = '[') (ht : t = 'T' ∨ t = 'F')
    (hcl : cl = ')' ∨ cl = ']')
    (hc1 : qc ∉ caller.data) (hc2 : qc ∉ callee.data)
    (hc3 : qc ∉ loc.data) :
    parseLine (b :: (hdrChars ++ (caller.data ++ (delimCallee ++
      (callee.data ++ (delimLoc ++ (loc.data ++ (delimClose ++
      [t, cl, '\n'])))))))) =
    some (Decision.mk (CallSite.mk caller callee loc)
      (decide (t = 'T')) (decide (b = '['))) := by
  rw [parseLine, if_pos hb, stripPrefixL_append]
  simp only []
  rw [delimCallee_eq,
    splitOnce_exact caller.data _ _ (fun c h he => hc1 (he ▸ h))]
  simp only []
  rw [delimLoc_eq,
    splitOnce_exact callee.data _ _ (fun c h he => hc2 (he ▸ h))]
  simp only []
  rw [delimClose_eq,
    splitOnce_exact loc.data _ _ (fun c h he => hc3 (he ▸ h))]
  simp only []
  rw [if_pos ⟨ht, hcl⟩]

/-- parseLine parses one serialized clean decision line back to the
decision. -/
theorem parseLine_lineStr (d : Decision) (hd : cleanDecision d) :
    parseLine (d.lineStr.data ++ ['\n']) = some d := by
  obtain ⟨⟨caller, callee, loc⟩, inl, md⟩ := d
  obtain ⟨⟨hc1, -⟩, ⟨hc2, -⟩, ⟨hc3, -⟩⟩ := hd
  have h := parseLine_generic (if md then '[' else '(')
    (if inl then 'T' else 'F') (if md then ']' else ')') caller callee loc
    (by cases md <;> simp) (by cases inl <;> simp) (by cases md <;> simp)
    hc1 hc2 hc3
  have hsh : (Decision.mk (CallSite.mk caller callee loc) inl md).lineStr.data
      ++ ['\n'] =
      (if md then '[' else '(') :: (hdrChars ++ (caller.data ++ (delimCallee
        ++ (callee.data ++ (delimLoc ++ (loc.data ++ (delimClose ++
        [(if inl then 'T' else 'F'), (if md then ']' else ')'),
         '\n']))))))) := by
    rw [lineStr_data]
    simp [List.append_assoc]
  rw [hsh, h]
  cases inl <;> cases md <;> rfl

/-- A serialized line with its newline is never blank: it starts with a
bracket. -/
theorem notBlank_lineStr (d : Decision) :
    isBlankLine (d.lineStr.data ++ ['\n']) = false := by
  rw [lineStr_data, List.cons_append]
  unfold isBlankLine
  rw [List.all_cons]
  cases hm : d.modified <;>
    simp [hm, show ('(' : Char).isWhitespace = false from by decide,
      show ('[' : Char).isWhitespace = false from by decide]

/-- fileLines splits off one newline-terminated line. -/
theorem fileLines_append (l rest : List Char) (hl : '\n' ∉ l) :
    fileLines (l ++ '\n' :: rest) = (l ++ ['\n']) :: fileLines rest := by
  induction l with
  | nil => rw [List.nil_append, fileLines, if_pos rfl]; rfl
  | cons c cs ih =>
    have hc : ¬ c = '\n' := fun h => hl (h ▸ List.mem_cons_self c cs)
    rw [List.cons_append, fileLines, if_neg hc,
      ih (fun h => hl (List.mem_cons_of_mem _ h))]
    rfl

/-- Saving and re-parsing a list of clean decisions gives the list back. -/
theorem parseLines_concat :
    ∀ (l : List Decision), (∀ d ∈ l, cleanDecision d) →
      parseLines (fileLines (concatLines l).data) = some l := by
  intro l
  induction l with
  | nil => intro _; rfl
  | cons d rest ih =>
    intro hall
    have hd := hall d (List.mem_cons_self d rest)
    have hdata : (concatLines (d :: rest)).data =
        d.lineStr.data ++ '\n' :: (concatLines rest).data := by
      show (d.lineStr ++ "\n" ++ concatLines rest).data = _
      simp [String.data_append, data_newline]
    rw [show concatLines (d :: rest) =
        d.lineStr ++ "\n" ++ concatLines rest from rfl] at hdata ⊢
    rw [hdata, fileLines_append d.lineStr.data _
      (noNL_lineStr d hd)]
    rw [parseLines, notBlank_lineStr d]
    simp only [Bool.false_eq_true, if_false]
    rw [parseLine_lineStr d hd,
      ih (fun x hx => hall x (List.mem_cons_of_mem _ hx))]
    rfl

/-- Claim C7 (amended): for any DecisionSet whose caller, callee and
location fields contain neither a quote character nor a newline,
load_decision_file on the text written for the set yields the set back:
same decisions, same order, same fields, for fixed and unfixed decisions
alike. -/
theorem c7_serialization_roundtrip (s : DecisionSet)
    (h : ∀ d ∈ s.decisions, cleanDecision d) :
    load_decision_file s.saveString = some s := by
  unfold load_decision_file DecisionSet.saveString
  rw [parseLines_concat s.decisions h]
  rfl

/-- Claim C7, counterexample: a caller field containing a newline breaks the
line structure of the file, so loading the written file fails entirely
instead of returning the original set. -/
theorem c7_counterexample :
    load_decision_file c7BadSet.saveString = none ∧
    load_decision_file c7BadSet.saveString ≠ some c7BadSet := by
  exact ⟨by decide, by decide⟩

/-- Witness for the amended C7 at a concrete set with one unfixed and one
fixed decision. -/
theorem c7_witness : load_decision_file c7GoodSet.saveString =
    some c7GoodSet :=
  c7_serialization_roundtrip c7GoodSet (by decide)

/- ### Claim C2 -/

/-- splitOnChar never returns the empty list (Python str.split always
returns at least one piece). -/
theorem splitOnChar_ne_nil (ch : Char) :
    ∀ (l : List Char), splitOnChar ch l ≠ [] := by
  intro l
  induction l with
  | nil => simp [splitOnChar]
  | cons x rest ih =>
    rw [splitOnChar]
    by_cases hx : x == ch
    · simp [hx]
    · simp only [hx, Bool.false_eq_true, if_false]
      cases hr : splitOnChar ch rest with
      | nil => simp
      | cons h t => simp

theorem splitChain_ne_nil (s : String) : splitChain s ≠ [] := by
  unfold splitChain
  intro h
  exact splitOnChar_ne_nil '@' _ (List.map_eq_nil_iff.1 h)

/-- The reversed fold of trickle_positive rebuilds the canonical
serialization of the chain. -/
theorem buildLoc_reverse_serialize :
    ∀ (l : List String), l ≠ [] → buildLoc l.reverse = serializeChain l := by
  intro l
  induction l with
  | nil => intro h; exact absurd rfl h
  | cons x r ih =>
    intro _
    by_cases hr : r = []
    · subst hr; rfl
    · obtain ⟨z, zs, hz⟩ : ∃ z zs, r.reverse = z :: zs := by
        cases hzz : r.reverse with
        | nil => exact absurd (List.reverse_eq_nil_iff.1 hzz) hr
        | cons z zs => exact ⟨z, zs, rfl⟩
      rw [List.reverse_cons, hz]
      rw [show buildLoc ((z :: zs) ++ [x]) =
          ((zs ++ [x]).foldl (fun acc l2 => l2 ++ "@[" ++ acc ++ "]") z)
        from rfl]
      rw [List.foldl_append]
      rw [show ([x].foldl (fun acc l2 => l2 ++ "@[" ++ acc ++ "]")
          (zs.foldl (fun acc l2 => l2 ++ "@[" ++ acc ++ "]") z)) =
          x ++ "@[" ++ (zs.foldl (fun acc l2 => l2 ++ "@[" ++ acc ++ "]") z)
            ++ "]" from rfl]
      rw [show (zs.foldl (fun acc l2 => l2 ++ "@[" ++ acc ++ "]") z) =
          buildLoc (z :: zs) from rfl]
      rw [← hz, ih hr]
      obtain ⟨y, ys, hys⟩ : ∃ y ys, r = y :: ys := by
        cases r with
        | nil => exact absurd rfl hr
        | cons y ys => exact ⟨y, ys, rfl⟩
      rw [hys]
      rfl

/-- The enumerate-and-insert loop of trickle_positive splices the new
decisions as one block right after the given position. -/
theorem insert_fold_splice :
    ∀ (news l : List Decision) (n : Nat), n ≤ l.length →
      ((news.foldl (fun (p : List Decision × Nat) d =>
          (insertAt p.1 p.2 d, p.2 + 1)) (l, n)).1 =
        l.take n ++ news ++ l.drop n) := by
  intro news
  induction news with
  | nil =>
    intro l n _
    simp [List.take_append_drop]
  | cons d ds ih =>
    intro l n hn
    rw [List.foldl_cons]
    have hlen : (insertAt l n d).length = l.length + 1 := by
      unfold insertAt
      rw [List.length_append, List.length_cons, List.length_take,
        List.length_drop]
      omega
    rw [show ((l, n).1, (l, n).2) = (l, n) from rfl]
    have hstep := ih (insertAt l n d) (n + 1) (by rw [hlen]; omega)
    rw [show (insertAt (l, n).1 (l, n).2 d, (l, n).2 + 1) =
        (insertAt l n d, n + 1) from rfl, hstep]
    have htk : (insertAt l n d).take (n + 1) = l.take n ++ [d] := by
      unfold insertAt
      rw [List.take_append_eq_append_take]
      rw [List.take_of_length_le (by rw [List.length_take]; omega)]
      congr 1
      rw [List.length_take, Nat.min_eq_left hn]
      simp
    have hdr : (insertAt l n d).drop (n + 1) = l.drop n := by
      unfold insertAt
      rw [List.drop_append_eq_append_drop]
      rw [List.drop_of_length_le (by rw [List.length_take]; omega)]
      rw [List.length_take, Nat.min_eq_left hn]
      simp
    rw [htk, hdr]
    simp

/-- findIdx? only returns positions inside the list. -/
theorem findIdx?_lt_length_dec :
    ∀ (l : List Decision) (p : Decision → Bool) (i : Nat),
      l.findIdx? p = some i → i < l.length := by
  intro l
  induction l with
  | nil => intro p i h; simp [List.findIdx?] at h
  | cons x xs ih =>
    intro p i h
    rw [List.findIdx?_cons] at h
    by_cases hp : p x
    · simp [hp] at h
      rw [List.length_cons]
      omega
    · rw [if_neg hp, List.findIdx?_succ] at h
      cases hfi : xs.findIdx? p with
      | none => rw [hfi] at h; simp at h
      | some j =>
        rw [hfi] at h
        simp at h
        have := ih p j hfi
        rw [List.length_cons]
        omega

/-- Claim C2, counterexample: trickle_positive only scans the decisions from
the target's position onward, so a decision whose caller equals the target
callee but which sits before the target in the set gets no synthesized
nested decision: flipping A to B at l1 to true leaves the set unchanged
apart from the replaced target, with no new A to C decision. -/
theorem c2_counterexample :
    trickle_decision_change 9 c2Base (CallSite.mk "A" "B" "l1") true =
      some [DecisionSet.mk
        [Decision.mk (CallSite.mk "B" "C" "l2") false false,
         Decision.mk (CallSite.mk "A" "B" "l1") true true]] ∧
    ((trickle_decision_change 9 c2Base (CallSite.mk "A" "B" "l1") true).map
      (List.map fun s2 => s2.decisions.length)) = some [2] := by
  exact ⟨by decide, by decide⟩

/-- Claim C2 (amended): for a target decision at position i with inlined
true, trickle_positive returns exactly one DecisionSet, obtained by
splicing, immediately after the target, the stable depth-ascending sort of
one synthesized decision per decision at or after position i whose caller
equals the target callee; each synthesized decision has the target's
caller, the source decision's callee and outcome, the fixed flag set, and
as location the serialized concatenation of the source decision's nesting
chain with the target's nesting chain. -/
theorem c2_trickle_positive_characterization (s : DecisionSet) (td : Decision)
    (i : Nat) (hinl : td.inlined = true)
    (hidx : s.decisions.findIdx? (fun d => decide (d = td)) = some i) :
    trickle_positive s td =
      some [DecisionSet.mk (s.decisions.take (i + 1) ++
        (sortByDepth (((s.decisions.drop i).filter
          (fun d => decide (d.call_site.caller = td.call_site.callee))).map
          (fun d => Decision.mk
            (CallSite.mk td.call_site.caller d.call_site.callee
              (serializeChain (splitChain d.call_site.location ++
                splitChain td.call_site.location)))
            d.inlined true)) ++
        s.decisions.drop (i + 1)))] := by
  unfold trickle_positive
  rw [hinl]
  simp only [Bool.not_true, Bool.false_eq_true, if_false]
  rw [hidx]
  simp only []
  have hmap : ∀ d : Decision,
      Decision.mk
        (CallSite.mk td.call_site.caller d.call_site.callee
          (buildLoc ((splitChain td.call_site.location).reverse ++
            (splitChain d.call_site.location).reverse)))
        d.inlined true =
      Decision.mk
        (CallSite.mk td.call_site.caller d.call_site.callee
          (serializeChain (splitChain d.call_site.location ++
            splitChain td.call_site.location)))
        d.inlined true := by
    intro d
    have hb : buildLoc ((splitChain td.call_site.location).reverse ++
        (splitChain d.call_site.location).reverse) =
        serializeChain (splitChain d.call_site.location ++
          splitChain td.call_site.location) := by
      rw [← List.reverse_append]
      exact buildLoc_reverse_serialize _
        (fun hemp => splitChain_ne_nil d.call_site.location
          (List.append_eq_nil.1 hemp).1)
    rw [hb]
  have hfun : (fun d : Decision => Decision.mk
        (CallSite.mk td.call_site.caller d.call_site.callee
          (buildLoc ((splitChain td.call_site.location).reverse ++
            (splitChain d.call_site.location).reverse)))
        d.inlined true) =
      (fun d : Decision => Decision.mk
        (CallSite.mk td.call_site.caller d.call_site.callee
          (serializeChain (splitChain d.call_site.location ++
            splitChain td.call_site.location)))
        d.inlined true) := funext hmap
  rw [hfun]
  rw [insert_fold_splice _ s.decisions (i + 1)
    (by have := findIdx?_lt_length_dec s.decisions _ i hidx; omega)]
  rw [List.append_assoc]

/-- Witness for the amended C2: the target at position 0, one later decision
with matching caller. -/
theorem c2_witness :
    trickle_positive c2WBase
      (Decision.mk (CallSite.mk "A" "B" "l1") true true) =
      some [DecisionSet.mk (c2WBase.decisions.take 1 ++
        (sortByDepth (((c2WBase.decisions.drop 0).filter
          (fun d => decide (d.call_site.caller = "B"))).map
          (fun d => Decision.mk
            (CallSite.mk "A" d.call_site.callee
              (serializeChain (splitChain d.call_site.location ++
                splitChain "l1")))
            d.inlined true)) ++
        c2WBase.decisions.drop 1))] :=
  c2_trickle_positive_characterization c2WBase
    (Decision.mk (CallSite.mk "A" "B" "l1") true true) 0 rfl (by decide)

/- ### Claim C8 -/

/-- find? on a split list whose left part has no matching call site. -/
theorem find_split_mid (l1 l2 : List Decision) (d : Decision) (cs : CallSite)
    (hl1 : ∀ x ∈ l1, x.call_site ≠ cs) (hd : d.call_site = cs) :
    (l1 ++ d :: l2).find? (fun x => decide (x.call_site = cs)) = some d := by
  induction l1 with
  | nil =>
    rw [List.nil_append]
    exact List.find?_cons_of_pos _ (by simp [hd])
  | cons x xs ih =>
    rw [List.cons_append]
    rw [List.find?_cons_of_neg _
      (by simp [hl1 x (List.mem_cons_self x xs)])]
    exact ih (fun y hy => hl1 y (List.mem_cons_of_mem _ hy))

/-- findIdx? for the structural-equality predicate on a split list whose
left part has no equal element. -/
theorem findIdx_value_split (l1 l2 : List Decision) (dec : Decision)
    (hl1 : ∀ x ∈ l1, x ≠ dec) :
    (l1 ++ dec :: l2).findIdx? (fun x => decide (x = dec)) =
      some l1.length := by
  induction l1 with
  | nil =>
    rw [List.nil_append, List.findIdx?_cons]
    simp
  | cons x xs ih =>
    rw [List.cons_append, List.findIdx?_cons,
      if_neg (by simp [hl1 x (List.mem_cons_self x xs)]),
      List.findIdx?_succ,
      ih (fun y hy => hl1 y (List.mem_cons_of_mem _ hy))]
    rfl

/-- Setting the position right after a prefix replaces the middle element. -/
theorem set_append_length (l1 l2 : List Decision) (d new : Decision) :
    (l1 ++ d :: l2).set l1.length new = l1 ++ new :: l2 := by
  induction l1 with
  | nil => rfl
  | cons x xs ih =>
    rw [List.cons_append, List.length_cons, List.set_cons_succ, ih,
      List.cons_append]

/-- find? does not distinguish two lists differing only in a middle element
that fails the predicate on both sides. -/
theorem find_middle_swap (l1 l2 : List Decision) (a b : Decision)
    (p : Decision → Bool) (ha : p a = false) (hb : p b = false) :
    (l1 ++ a :: l2).find? p = (l1 ++ b :: l2).find? p := by
  induction l1 with
  | nil =>
    rw [List.nil_append, List.nil_append,
      List.find?_cons_of_neg _ (by simp [ha]),
      List.find?_cons_of_neg _ (by simp [hb])]
  | cons x xs ih =>
    by_cases hx : p x = true
    · rw [List.cons_append, List.cons_append, List.find?_cons_of_pos _ hx,
        List.find?_cons_of_pos _ hx]
    · rw [List.cons_append, List.cons_append,
        List.find?_cons_of_neg _ hx, List.find?_cons_of_neg _ hx, ih]

/-- A Boolean prefix implies a length bound. -/
theorem isPrefixL_length :
    ∀ (a b : List Char), isPrefixL a b = true → a.length ≤ b.length := by
  intro a
  induction a with
  | nil => intro b _; simp
  | cons c cs ih =>
    intro b h
    cases b with
    | nil => simp [isPrefixL] at h
    | cons x xs =>
      rw [isPrefixL, Bool.and_eq_true] at h
      have := ih xs h.2
      simp only [List.length_cons]
      omega

/-- A location never contains its own bracketed form: the pattern is three
characters longer than the location itself. -/
theorem containsStr_self_bracket (x : String) :
    containsStr ("@[" ++ x ++ "]") x = false := by
  unfold containsStr containsSub
  rw [List.any_eq_false]
  intro i _
  intro hpre
  have hlen := isPrefixL_length _ _ hpre
  have hndl : ("@[" ++ x ++ "]").data.length = x.data.length + 3 := by
    simp [String.data_append]
  have hdrop : (x.data.drop i).length ≤ x.data.length := by
    rw [List.length_drop]; omega
  omega

/-- The buildable-decision scan only depends on the call sites of the
decisions, not on their outcomes or flags. -/
theorem scanBuildable_callsites :
    ∀ (L1 L2 : List Decision),
      L1.map (fun d => d.call_site) = L2.map (fun d => d.call_site) →
      ∀ seen, scanBuildable L1 seen = [] → scanBuildable L2 seen = [] := by
  intro L1
  induction L1 with
  | nil =>
    intro L2 hm seen _
    have h2 : L2 = [] := List.map_eq_nil_iff.1 hm.symm
    subst h2
    rfl
  | cons d1 r1 ih =>
    intro L2 hm seen h
    cases L2 with
    | nil => simp at hm
    | cons d2 r2 =>
      simp only [List.map_cons, List.cons.injEq] at hm
      obtain ⟨hcs, hrest⟩ := hm
      rw [scanBuildable] at h
      rw [scanBuildable]
      rw [← hcs]
      split at h
      · exact absurd h (by simp)
      · rename_i hhit
        rw [if_neg hhit]
        exact ih r2 hrest _ h

/-- When no buildable decision is found, remove_implicit_duplicates keeps
the set unchanged. -/
theorem remove_implicit_duplicates_noop (s : DecisionSet)
    (h : scanBuildable s.decisions [] = []) :
    s.remove_implicit_duplicates = some s := by
  unfold DecisionSet.remove_implicit_duplicates
  rw [h]
  rfl

/-- When no decision refers to the updated decision's callee and nothing
nests under its location, trickle_positive only needs the target itself and
returns the set unchanged. -/
theorem trickle_positive_noop (l1 l2 : List Decision) (newT : Decision)
    (hT : newT.inlined = true)
    (hne : ∀ x ∈ l1, x ≠ newT)
    (hcallers : ∀ x ∈ newT :: l2,
      x.call_site.caller ≠ newT.call_site.callee) :
    trickle_positive (DecisionSet.mk (l1 ++ newT :: l2)) newT =
      some [DecisionSet.mk (l1 ++ newT :: l2)] := by
  unfold trickle_positive
  rw [hT]
  simp only [Bool.not_true, Bool.false_eq_true, if_false]
  rw [findIdx_value_split l1 l2 newT hne]
  simp only []
  rw [List.drop_left]
  rw [List.filter_eq_nil_iff.2
    (fun x hx => by simp [hcallers x hx])]
  rfl

/-- When nothing nests under the updated decision's location and the set is
conflict-free, trickle_negative returns the set unchanged. -/
theorem trickle_negative_noop (fuel : Nat) (ds : DecisionSet)
    (upd : Decision) (hfuel : 3 ≤ fuel)
    (hdeps : ∀ d ∈ ds.decisions,
      containsStr ("@[" ++ upd.call_site.location ++ "]")
        d.call_site.location = false)
    (hnod : ds.get_next_conflicting_decisions = none) :
    trickle_negative fuel ds upd = some [ds] := by
  obtain ⟨f1, rfl⟩ : ∃ f1, fuel = f1 + 1 := ⟨fuel - 1, by omega⟩
  unfold trickle_negative
  have hdd : dependantsOf ds upd = [] := by
    unfold dependantsOf
    exact List.filter_eq_nil_iff.2 (fun x hx => by simp [hdeps x hx])
  rw [hdd]
  show trickleNegLoop f1 [ds] = some [ds]
  obtain ⟨f2, rfl⟩ : ∃ f2, f1 = f2 + 1 := ⟨f1 - 1, by omega⟩
  unfold trickleNegLoop
  obtain ⟨f3, rfl⟩ : ∃ f3, f2 = f3 + 1 := ⟨f2 - 1, by omega⟩
  rw [show processPass (f3 + 1) [ds] =
      some ([ds], [], false) from by
    unfold processPass
    rw [hnod]
    simp only [processPass]]
  rfl

/-- A successful decision_for splits the list at the first decision whose
call site matches. -/
theorem find?_split (l : List Decision) (cs : CallSite) (d0 : Decision)
    (h : l.find? (fun x => decide (x.call_site = cs)) = some d0) :
    ∃ l1 l2, l = l1 ++ d0 :: l2 ∧ (∀ x ∈ l1, x.call_site ≠ cs) ∧
      d0.call_site = cs := by
  induction l with
  | nil => simp at h
  | cons x xs ih =>
    by_cases hx : x.call_site = cs
    · rw [List.find?_cons_of_pos _ (by simp [hx])] at h
      injection h with h
      subst h
      exact ⟨[], xs, rfl, by simp, hx⟩
    · rw [List.find?_cons_of_neg _ (by simp [hx])] at h
      obtain ⟨l1, l2, heq, hl1, hd⟩ := ih h
      refine ⟨x :: l1, l2, by rw [heq, List.cons_append], ?_, hd⟩
      intro y hy
      rcases List.mem_cons.1 hy with hy | hy
      · rw [hy]; exact hx
      · exact hl1 y hy

theorem decision_for_split (s : DecisionSet) (cs : CallSite) (d0 : Decision)
    (h : s.decision_for cs = some d0) :
    ∃ l1 l2, s.decisions = l1 ++ d0 :: l2 ∧ (∀ x ∈ l1, x.call_site ≠ cs) ∧
      d0.call_site = cs :=
  find?_split s.decisions cs d0 h

/-- Claim C8 (amended): when no decision of the conflict-free base S is
affected by nesting under the target call site (no caller equals the target
callee, no location references the target location) and S contains no
implicit-duplicate pattern, flipping the target to true and then back to
false returns single DecisionSets whose Decision for every call site other
than the target's is exactly the original one. -/
theorem c8_reflip_preserves_unaffected (fuel : Nat) (S : DecisionSet)
    (cs : CallSite) (d0 : Decision) (hfuel : 3 ≤ fuel)
    (h0 : S.decision_for cs = some d0)
    (hA : ∀ d ∈ S.decisions, d.call_site.caller ≠ cs.callee)
    (hB : ∀ d ∈ S.decisions,
      containsStr ("@[" ++ cs.location ++ "]") d.call_site.location = false)
    (hC : (S.decisions.map fun d => d.call_site.location).Nodup)
    (hD : scanBuildable S.decisions [] = []) :
    ∃ S1 S2,
      trickle_decision_change fuel S cs true = some [S1] ∧
      trickle_decision_change fuel S1 cs false = some [S2] ∧
      ∀ cs2 : CallSite, cs2 ≠ cs →
        S2.decision_for cs2 = S.decision_for cs2 := by
  obtain ⟨l1, l2, hsplit, hl1, hd0cs⟩ := decision_for_split S cs d0 h0
  have hmemS : ∀ x : Decision, x ∈ l1 ∨ x = d0 ∨ x ∈ l2 →
      x ∈ S.decisions := by
    intro x hx
    rw [hsplit]
    rcases hx with h | h | h
    · exact List.mem_append_left _ h
    · rw [h]; exact List.mem_append_right _ (List.mem_cons_self _ _)
    · exact List.mem_append_right _ (List.mem_cons_of_mem _ h)
  have hccne : cs.caller ≠ cs.callee := by
    have := hA d0 (hmemS d0 (Or.inr (Or.inl rfl)))
    rw [hd0cs] at this
    exact this
  have hl1ne : ∀ dec : Decision, dec.call_site = cs → ∀ x ∈ l1, x ≠ dec := by
    intro dec hdec x hx he
    exact (hl1 x hx) (he ▸ hdec)
  refine ⟨DecisionSet.mk (l1 ++ Decision.mk cs true true :: l2),
    DecisionSet.mk (l1 ++ Decision.mk cs false true :: l2), ?_, ?_, ?_⟩
  · -- first trickle: flip to true, nothing synthesized
    have hidx0 : (l1 ++ d0 :: l2).findIdx? (fun x => decide (x = d0)) =
        some l1.length := findIdx_value_split l1 l2 d0 (hl1ne d0 hd0cs)
    have hrep : S.replace_decision d0 cs true true =
        some (DecisionSet.mk (l1 ++ Decision.mk cs true true :: l2)) := by
      unfold DecisionSet.replace_decision
      simp only [hsplit, hidx0, set_append_length]
    have hdf1 : (DecisionSet.mk
        (l1 ++ Decision.mk cs true true :: l2)).decision_for cs =
        some (Decision.mk cs true true) :=
      find_split_mid l1 l2 _ cs hl1 rfl
    have hpos := trickle_positive_noop l1 l2 (Decision.mk cs true true) rfl
      (hl1ne _ rfl)
      (by
        intro x hx
        rcases List.mem_cons.1 hx with hx | hx
        · rw [hx]; exact hccne
        · exact hA x (hmemS x (Or.inr (Or.inr hx))))
    have hmcs1 : S.decisions.map (fun d => d.call_site) =
        (DecisionSet.mk
          (l1 ++ Decision.mk cs true true :: l2)).decisions.map
          (fun d => d.call_site) := by
      rw [hsplit]
      simp [hd0cs]
    have hrid : (DecisionSet.mk
        (l1 ++ Decision.mk cs true true :: l2)).remove_implicit_duplicates =
        some (DecisionSet.mk (l1 ++ Decision.mk cs true true :: l2)) :=
      remove_implicit_duplicates_noop _
        (scanBuildable_callsites _ _ hmcs1 [] hD)
    unfold trickle_decision_change
    simp only [DecisionSet.cloneSet_self, h0, hrep, hdf1, eq_self_iff_true,
      if_true, hpos]
    unfold mapRemoveDups
    simp only [hrid]
    rfl
  · -- second trickle: flip back to false, nothing to pull up
    have hidx1 : (l1 ++ Decision.mk cs true true :: l2).findIdx?
        (fun x => decide (x = Decision.mk cs true true)) = some l1.length :=
      findIdx_value_split l1 l2 _ (hl1ne _ rfl)
    have hdfS1 : (DecisionSet.mk
        (l1 ++ Decision.mk cs true true :: l2)).decision_for cs =
        some (Decision.mk cs true true) :=
      find_split_mid l1 l2 _ cs hl1 rfl
    have hrep2 : (DecisionSet.mk
        (l1 ++ Decision.mk cs true true :: l2)).replace_decision
          (Decision.mk cs true true) cs false true =
        some (DecisionSet.mk (l1 ++ Decision.mk cs false true :: l2)) := by
      unfold DecisionSet.replace_decision
      simp only [hidx1, set_append_length]
    have hdf2 : (DecisionSet.mk
        (l1 ++ Decision.mk cs false true :: l2)).decision_for cs =
        some (Decision.mk cs false true) :=
      find_split_mid l1 l2 _ cs hl1 rfl
    have hmloc2 : ((DecisionSet.mk
        (l1 ++ Decision.mk cs false true :: l2)).decisions.map
          fun d => d.call_site.location) =
        S.decisions.map fun d => d.call_site.location := by
      rw [hsplit]
      simp [hd0cs]
    have hneg := trickle_negative_noop fuel
      (DecisionSet.mk (l1 ++ Decision.mk cs false true :: l2))
      (Decision.mk cs false true) hfuel
      (by
        intro d hd
        rcases List.mem_append.1 hd with hd | hd
        · exact hB d (hmemS d (Or.inl hd))
        · rcases List.mem_cons.1 hd with hd | hd
          · rw [hd]
            exact containsStr_self_bracket cs.location
          · exact hB d (hmemS d (Or.inr (Or.inr hd))))
      (by
        rw [get_next_conflicting_none_iff, hmloc2]
        exact hC)
    have hmcs2 : S.decisions.map (fun d => d.call_site) =
        (DecisionSet.mk
          (l1 ++ Decision.mk cs false true :: l2)).decisions.map
          (fun d => d.call_site) := by
      rw [hsplit]
      simp [hd0cs]
    have hrid2 : (DecisionSet.mk
        (l1 ++ Decision.mk cs false true :: l2)).remove_implicit_duplicates =
        some (DecisionSet.mk (l1 ++ Decision.mk cs false true :: l2)) :=
      remove_implicit_duplicates_noop _
        (scanBuildable_callsites _ _ hmcs2 [] hD)
    unfold trickle_decision_change
    simp only [DecisionSet.cloneSet_self, hdfS1, hrep2, hdf2,
      Bool.false_eq_true, if_false, hneg]
    unfold mapRemoveDups
    simp only [hrid2]
    rfl
  · -- unaffected call sites keep their original decision
    intro cs2 hne2
    unfold DecisionSet.decision_for
    rw [show (DecisionSet.mk
      (l1 ++ Decision.mk cs false true :: l2)).decisions =
      l1 ++ Decision.mk cs false true :: l2 from rfl, hsplit]
    exact find_middle_swap l1 l2 (Decision.mk cs false true) d0 _
      (decide_eq_false (fun h => hne2 (by
        rw [show (Decision.mk cs false true).call_site = cs from rfl] at h
        exact h.symm)))
      (decide_eq_false (fun h => hne2 (by
        rw [hd0cs] at h
        exact h.symm)))

/-- Claim C8, counterexample: the decision for the call site P to Q at
location y bracket z is unaffected by nesting under the target (its caller
is not the target callee and its location does not reference the target
location), yet after flipping the target to true and back to false its
Decision is gone — remove_implicit_duplicates drops it as an implicit
duplicate of the pair P to R, R to Q during the first trickle. -/
theorem c8_counterexample :
    trickle_decision_change 9 c8Base (CallSite.mk "A" "B" "l1") true =
      some [c8Mid] ∧
    trickle_decision_change 9 c8Mid (CallSite.mk "A" "B" "l1") false =
      some [c8Out] ∧
    (CallSite.mk "P" "Q" "y@[z]").caller ≠
      (CallSite.mk "A" "B" "l1").callee ∧
    containsStr ("@[" ++ "l1" ++ "]") "y@[z]" = false ∧
    c8Out.decision_for (CallSite.mk "P" "Q" "y@[z]") = none ∧
    c8Base.decision_for (CallSite.mk "P" "Q" "y@[z]") =
      some (Decision.mk (CallSite.mk "P" "Q" "y@[z]") false false) := by
  decide

/-- Witness for the amended C8 at a concrete base set. -/
theorem c8_witness :
    ∃ S1 S2,
      trickle_decision_change 9 c8WBase (CallSite.mk "A" "B" "l1") true =
        some [S1] ∧
      trickle_decision_change 9 S1 (CallSite.mk "A" "B" "l1") false =
        some [S2] ∧
      ∀ cs2 : CallSite, cs2 ≠ CallSite.mk "A" "B" "l1" →
        S2.decision_for cs2 = c8WBase.decision_for cs2 :=
  c8_reflip_preserves_unaffected 9 c8WBase (CallSite.mk "A" "B" "l1")
    (Decision.mk (CallSite.mk "A" "B" "l1") false false)
    (by omega) (by decide) (by decide) (by decide) (by decide) (by decide)

/- ### Claim C9 -/

/-- Cloning allocates tokens at or above the incoming counter and moves the
counter forward. -/
theorem icloneList_mono :
    ∀ (l : List IDecision) (c : Nat) (l2 : List IDecision) (c2 : Nat),
      icloneList l c = (l2, c2) →
      c ≤ c2 ∧ ∀ d ∈ l2, c ≤ d.tok := by
  intro l
  induction l with
  | nil =>
    intro c l2 c2 h
    injection h with h1 h2
    subst h1; subst h2
    exact ⟨Nat.le_refl c, by simp⟩
  | cons d rest ih =>
    intro c l2 c2 h
    rw [icloneList] at h
    cases hrec : icloneList rest (c + 1) with
    | mk r2 cr =>
      rw [hrec] at h
      injection h with h1 h2
      subst h1; subst h2
      obtain ⟨hm, hall⟩ := ih (c + 1) r2 cr hrec
      refine ⟨by omega, ?_⟩
      intro x hx
      rcases List.mem_cons.1 hx with hx | hx
      · rw [hx]
      · have := hall x hx
        omega

/-- membership in a set list position update. -/
theorem mem_set_or (l : List IDecision) (i : Nat) (a x : IDecision)
    (h : x ∈ l.set i a) : x ∈ l ∨ x = a := by
  have := List.mem_or_eq_of_mem_set h
  tauto

/-- ireplace keeps the token lower bound and moves the counter forward. -/
theorem ireplace_inv (m : Nat) (s : IDecisionSet) (dec : IDecision)
    (cs : CallSite) (inl fixed : Bool) (c : Nat) (s2 : IDecisionSet)
    (c2 : Nat)
    (hs : ∀ d ∈ s.decisions, m ≤ d.tok) (hc : m ≤ c)
    (h : s.ireplace dec cs inl fixed c = some (s2, c2)) :
    (∀ d ∈ s2.decisions, m ≤ d.tok) ∧ c ≤ c2 := by
  unfold IDecisionSet.ireplace at h
  split at h
  · simp at h
  · rename_i i hidx
    simp only [Option.some.injEq, Prod.mk.injEq] at h
    obtain ⟨h1, h2⟩ := h
    subst h1
    refine ⟨?_, by omega⟩
    intro d hd
    rcases mem_set_or _ _ _ _ hd with hd | hd
    · exact hs d hd
    · rw [hd]; exact hc

theorem iremoveFirst_sublist :
    ∀ (l : List IDecision) (d : IDecision) (l2 : List IDecision),
      iremoveFirst l d = some l2 → l2.Sublist l := by
  intro l
  induction l with
  | nil => intro d l2 h; simp [iremoveFirst] at h
  | cons x xs ih =>
    intro d l2 h
    rw [iremoveFirst] at h
    by_cases hx : IDecision.sameVal x d = true
    · rw [if_pos hx] at h
      cases h
      exact List.sublist_cons_self x xs
    · rw [if_neg hx] at h
      cases hre : iremoveFirst xs d with
      | none => rw [hre] at h; simp at h
      | some l3 =>
        rw [hre] at h
        simp at h
        subst h
        exact (ih d l3 hre).cons₂ x

theorem iremoveAll_sublist :
    ∀ (rs l l2 : List IDecision), iremoveAll l rs = some l2 →
      l2.Sublist l := by
  intro rs
  induction rs with
  | nil => intro l l2 h; rw [iremoveAll] at h; cases h; exact List.Sublist.refl _
  | cons r rest ih =>
    intro l l2 h
    rw [iremoveAll] at h
    cases hrf : iremoveFirst l r with
    | none => rw [hrf] at h; simp at h
    | some l3 =>
      rw [hrf] at h
      exact (ih l3 l2 h).trans (iremoveFirst_sublist l r l3 hrf)

theorem iremovalPhase_sublist :
    ∀ (bs l l2 : List IDecision), iremovalPhase l bs = some l2 →
      l2.Sublist l := by
  intro bs
  induction bs with
  | nil => intro l l2 h; rw [iremovalPhase] at h; cases h; exact List.Sublist.refl _
  | cons b rest ih =>
    intro l l2 h
    rw [iremovalPhase] at h
    split at h
    · simp at h
    · rename_i l3 hrf
      split at h
      · simp at h
      · rename_i l4 hra
        exact ((ih l4 l2 h).trans (iremoveAll_sublist _ l3 l4 hra)).trans
          (iremoveFirst_sublist l b l3 hrf)

theorem iremove_implicit_duplicates_toks (m : Nat) (s s2 : IDecisionSet)
    (hs : ∀ d ∈ s.decisions, m ≤ d.tok)
    (h : s.iremove_implicit_duplicates = some s2) :
    ∀ d ∈ s2.decisions, m ≤ d.tok := by
  unfold IDecisionSet.iremove_implicit_duplicates at h
  cases hrp : iremovalPhase s.decisions (iscanBuildable s.decisions []) with
  | none => rw [hrp] at h; simp at h
  | some l2 =>
    rw [hrp] at h
    simp at h
    subst h
    intro d hd
    exact hs d ((iremovalPhase_sublist _ _ _ hrp).mem hd)

/-- The synthesized decisions carry tokens at or above the counter. -/
theorem isynthList_inv (td : IDecision) :
    ∀ (l : List IDecision) (c : Nat) (l2 : List IDecision) (c2 : Nat),
      isynthList td l c = (l2, c2) →
      c ≤ c2 ∧ ∀ d ∈ l2, c ≤ d.tok := by
  intro l
  induction l with
  | nil =>
    intro c l2 c2 h
    injection h with h1 h2
    subst h1; subst h2
    exact ⟨Nat.le_refl c, by simp⟩
  | cons d rest ih =>
    intro c l2 c2 h
    rw [isynthList] at h
    cases hrec : isynthList td rest (c + 1) with
    | mk r2 cr =>
      rw [hrec] at h
      injection h with h1 h2
      subst h1; subst h2
      obtain ⟨hm, hall⟩ := ih (c + 1) r2 cr hrec
      refine ⟨by omega, ?_⟩
      intro x hx
      rcases List.mem_cons.1 hx with hx | hx
      · rw [hx]
      · have := hall x hx
        omega

theorem iinsertSorted_mem (d x : IDecision) :
    ∀ (l : List IDecision), x ∈ iinsertSorted d l → x = d ∨ x ∈ l := by
  intro l
  induction l with
  | nil => intro h; simp [iinsertSorted] at h; exact Or.inl h
  | cons y ys ih =>
    intro h
    rw [iinsertSorted] at h
    split at h
    · rcases List.mem_cons.1 h with h | h
      · exact Or.inr (by rw [h]; exact List.mem_cons_self y ys)
      · rcases ih h with h | h
        · exact Or.inl h
        · exact Or.inr (List.mem_cons_of_mem _ h)
    · rcases List.mem_cons.1 h with h | h
      · exact Or.inl h
      · exact Or.inr h

theorem isortByDepth_mem (x : IDecision) :
    ∀ (l acc : List IDecision),
      x ∈ l.foldl (fun acc d => iinsertSorted d acc) acc →
      x ∈ acc ∨ x ∈ l := by
  intro l
  induction l with
  | nil => intro acc h; exact Or.inl h
  | cons d rest ih =>
    intro acc h
    rw [List.foldl_cons] at h
    rcases ih (iinsertSorted d acc) h with h | h
    · rcases iinsertSorted_mem d x acc h with h | h
      · exact Or.inr (by rw [h]; exact List.mem_cons_self d rest)
      · exact Or.inl h
    · exact Or.inr (List.mem_cons_of_mem _ h)

theorem iinsertAt_mem (l : List IDecision) (n : Nat) (d x : IDecision)
    (h : x ∈ iinsertAt l n d) : x ∈ l ∨ x = d := by
  unfold iinsertAt at h
  rcases List.mem_append.1 h with h | h
  · exact Or.inl (List.mem_of_mem_take h)
  · rcases List.mem_cons.1 h with h | h
    · exact Or.inr h
    · exact Or.inl (List.mem_of_mem_drop h)

theorem ifold_insert_mem (x : IDecision) :
    ∀ (news l : List IDecision) (n : Nat),
      x ∈ (news.foldl (fun (p : List IDecision × Nat) d =>
        (iinsertAt p.1 p.2 d, p.2 + 1)) (l, n)).1 →
      x ∈ l ∨ x ∈ news := by
  intro news
  induction news with
  | nil => intro l n h; exact Or.inl h
  | cons d ds ih =>
    intro l n h
    rw [List.foldl_cons] at h
    rcases ih (iinsertAt l n d) (n + 1) h with h | h
    · rcases iinsertAt_mem l n d x h with h | h
      · exact Or.inl h
      · exact Or.inr (by rw [h]; exact List.mem_cons_self d ds)
    · exact Or.inr (List.mem_cons_of_mem _ h)

/-- trickle_positive only returns objects of the working set or freshly
synthesized ones, and moves the counter forward. -/
theorem itrickle_positive_inv (m : Nat) (ds : IDecisionSet)
    (td : IDecision) (c : Nat) (out : List IDecisionSet) (c2 : Nat)
    (hs : ∀ d ∈ ds.decisions, m ≤ d.tok) (hc : m ≤ c)
    (h : itrickle_positive ds td c = some (out, c2)) :
    (∀ s ∈ out, ∀ d ∈ s.decisions, m ≤ d.tok) ∧ c ≤ c2 := by
  unfold itrickle_positive at h
  split at h
  · simp at h
  · split at h
    · simp at h
    · rename_i idx hidx
      simp only [] at h
      cases hsyn : isynthList td ((ds.decisions.drop idx).filter
          fun d => decide (d.call_site.caller = td.call_site.callee)) c with
      | mk newsl csyn => ?_
      rw [hsyn] at h
      simp only [Option.some.injEq, Prod.mk.injEq] at h
      obtain ⟨h1, h2⟩ := h
      subst h2
      obtain ⟨hmono, hnews⟩ := isynthList_inv td _ c newsl csyn hsyn
      refine ⟨?_, hmono⟩
      intro s hsmem d hd
      rw [← h1] at hsmem
      rcases List.mem_singleton.1 hsmem with rfl
      rcases ifold_insert_mem d _ _ _ hd with hd | hd
      · exact hs d hd
      · rcases isortByDepth_mem d newsl [] hd with hd | hd
        · simp at hd
        · have := hnews d hd
          omega

/-- The replacement loop keeps the token bound and moves the counter
forward. -/
theorem iapplyReplacements_inv (m : Nat) :
    ∀ (rs : List (IDecision × CallSite)) (ds : IDecisionSet) (c : Nat)
      (ds2 : IDecisionSet) (c2 : Nat),
      (∀ d ∈ ds.decisions, m ≤ d.tok) → m ≤ c →
      iapplyReplacements ds rs c = some (ds2, c2) →
      (∀ d ∈ ds2.decisions, m ≤ d.tok) ∧ c ≤ c2 := by
  intro rs
  induction rs with
  | nil =>
    intro ds c ds2 c2 hs hc h
    rw [iapplyReplacements] at h
    injection h with h
    injection h with h1 h2
    subst h1; subst h2
    exact ⟨hs, Nat.le_refl c⟩
  | cons r rest ih =>
    intro ds c ds2 c2 hs hc h
    rw [iapplyReplacements] at h
    split at h
    · simp at h
    · rename_i dsMid cMid hrep
      obtain ⟨hs2, hc2⟩ := ireplace_inv m ds r.1 r.2 r.1.inlined true c
        dsMid cMid hs hc hrep
      obtain ⟨hout, hcc⟩ := ih dsMid cMid ds2 c2 hs2 (by omega) h
      exact ⟨hout, by omega⟩

/-- Cloning a set allocates only at or above the incoming counter. -/
theorem iclone_inv (m : Nat) (s : IDecisionSet) (c : Nat)
    (s2 : IDecisionSet) (c2 : Nat) (hc : m ≤ c)
    (h : s.iclone c = (s2, c2)) :
    (∀ d ∈ s2.decisions, m ≤ d.tok) ∧ c ≤ c2 := by
  unfold IDecisionSet.iclone at h
  cases hcl : icloneList s.decisions c with
  | mk l cl =>
    rw [hcl] at h
    injection h with h1 h2
    subst h1; subst h2
    obtain ⟨hm, hall⟩ := icloneList_mono s.decisions c l cl hcl
    exact ⟨fun d hd => le_trans hc (hall d hd), hm⟩

/-- Token lower bound and counter monotonicity through the instrumented
trickle_negative, its loop, and its pass, by joint fuel induction. -/
theorem itrio_inv (m : Nat) : ∀ fuel : Nat,
    (∀ (ds : IDecisionSet) (upd : IDecision) (c : Nat)
      (out : List IDecisionSet) (c2 : Nat),
      (∀ d ∈ ds.decisions, m ≤ d.tok) → m ≤ c →
      itrickle_negative fuel ds upd c = some (out, c2) →
      (∀ s ∈ out, ∀ d ∈ s.decisions, m ≤ d.tok) ∧ c ≤ c2) ∧
    (∀ (sets : List IDecisionSet) (c : Nat) (out : List IDecisionSet)
      (c2 : Nat),
      (∀ s ∈ sets, ∀ d ∈ s.decisions, m ≤ d.tok) → m ≤ c →
      itrickleNegLoop fuel sets c = some (out, c2) →
      (∀ s ∈ out, ∀ d ∈ s.decisions, m ≤ d.tok) ∧ c ≤ c2) ∧
    (∀ (sets : List IDecisionSet) (c : Nat)
      (r : List IDecisionSet × List IDecisionSet × Bool × Nat),
      (∀ s ∈ sets, ∀ d ∈ s.decisions, m ≤ d.tok) → m ≤ c →
      iprocessPass fuel sets c = some r →
      ((∀ s ∈ r.1, ∀ d ∈ s.decisions, m ≤ d.tok) ∧
       (∀ s ∈ r.2.1, ∀ d ∈ s.decisions, m ≤ d.tok) ∧ c ≤ r.2.2.2)) := by
  intro fuel
  induction fuel with
  | zero =>
    refine ⟨?_, ?_, ?_⟩
    · intro ds upd c out c2 _ _ h
      unfold itrickle_negative at h
      simp at h
    · intro sets c out c2 _ _ h
      unfold itrickleNegLoop at h
      simp at h
    · intro sets c r _ _ h
      cases sets with
      | nil =>
        unfold iprocessPass at h
        injection h with h
        subst h
        exact ⟨by simp, by simp, Nat.le_refl c⟩
      | cons s ss =>
        unfold iprocessPass at h
        simp at h
  | succ fuel ih =>
    obtain ⟨ihTN, ihLoop, ihPass⟩ := ih
    refine ⟨?_, ?_, ?_⟩
    · intro ds upd c out c2 hs hc h
      unfold itrickle_negative at h
      simp only [] at h
      cases hcl : ds.iclone c with
      | mk cloned cMid => ?_
      rw [hcl] at h
      simp only [] at h
      obtain ⟨hclT, hclC⟩ := iclone_inv m ds c cloned cMid hc hcl
      split at h
      · simp at h
      · rename_i ds2 c3 happ
        obtain ⟨hs2, hc3⟩ := iapplyReplacements_inv m _ cloned cMid ds2 c3
          hclT (by omega) happ
        obtain ⟨hout, hcc⟩ := ihLoop [ds2] c3 out c2
          (by
            intro s hsm
            rcases List.mem_singleton.1 hsm with rfl
            exact hs2)
          (by omega) h
        exact ⟨hout, by omega⟩
    · intro sets c out c2 hsets hc h
      unfold itrickleNegLoop at h
      split at h
      · simp at h
      · rename_i sets2 news conf cMid hpass
        obtain ⟨h1, h2, h3⟩ := ihPass sets c (sets2, news, conf, cMid)
          hsets hc hpass
        split at h
        · obtain ⟨hout, hcc⟩ := ihLoop (sets2 ++ news) cMid out c2
            (by
              intro s hsm
              rcases List.mem_append.1 hsm with hsm | hsm
              · exact h1 s hsm
              · exact h2 s hsm)
            (by
              have : c ≤ cMid := h3
              omega) h
          refine ⟨hout, ?_⟩
          have : c ≤ cMid := h3
          omega
        · simp only [Option.some.injEq, Prod.mk.injEq] at h
          obtain ⟨ha, hb⟩ := h
          subst ha; subst hb
          refine ⟨h1, h3⟩
    · intro sets c r hsets hc h
      cases sets with
      | nil =>
        unfold iprocessPass at h
        injection h with h
        subst h
        exact ⟨by simp, by simp, Nat.le_refl c⟩
      | cons ds rest =>
        have hds : ∀ d ∈ ds.decisions, m ≤ d.tok :=
          hsets ds (List.mem_cons_self _ _)
        have hrest : ∀ s ∈ rest, ∀ d ∈ s.decisions, m ≤ d.tok :=
          fun s hs => hsets s (List.mem_cons_of_mem _ hs)
        unfold iprocessPass at h
        split at h
        · split at h
          · simp at h
          · rename_i rest2 news conf cMid hpass
            simp only [Option.some.injEq] at h
            subst h
            obtain ⟨h1, h2, h3⟩ := ihPass rest c (rest2, news, conf, cMid)
              hrest hc hpass
            refine ⟨?_, h2, h3⟩
            intro s hsm
            rcases List.mem_cons.1 hsm with hsm | hsm
            · rw [hsm]; exact hds
            · exact h1 s hsm
        · rename_i loc hdup
          simp only [] at h
          split at h
          · simp at h
          · rename_i decs1 hrem
            have hdecs1 : ∀ d ∈ decs1, m ≤ d.tok := fun d hd =>
              hds d ((iremoveAll_sublist _ _ _ hrem).mem hd)
            split at h
            · rename_i i0 itl n0 ntl hinl hninl
              cases hcl : (IDecisionSet.mk decs1).iclone c with
              | mk newDs cMid => ?_
              rw [hcl] at h
              simp only [] at h
              obtain ⟨hclT, hclC⟩ := iclone_inv m (IDecisionSet.mk decs1) c
                newDs cMid hc hcl
              split at h
              · rename_i keepInl keepNinl hkI hkN
                split at h
                · simp at h
                · rename_i subSets c3 htn
                  obtain ⟨hsub, hc3⟩ := ihTN (IDecisionSet.mk keepNinl) n0
                    cMid subSets c3
                    (by
                      intro d hd
                      exact hclT d
                        ((iremoveFirst_sublist _ _ _ hkN).mem hd))
                    (by omega) htn
                  split at h
                  · simp at h
                  · rename_i rest2 news conf c4 hpass
                    simp only [Option.some.injEq] at h
                    subst h
                    obtain ⟨h1, h2, h3⟩ := ihPass rest c3
                      (rest2, news, conf, c4) hrest (by omega) hpass
                    refine ⟨?_, ?_, ?_⟩
                    · intro s hsm
                      rcases List.mem_cons.1 hsm with hsm | hsm
                      · rw [hsm]
                        intro d hd
                        exact hdecs1 d
                          ((iremoveFirst_sublist _ _ _ hkI).mem hd)
                      · exact h1 s hsm
                    · intro s hsm
                      rcases List.mem_append.1 hsm with hsm | hsm
                      · exact hsub s hsm
                      · exact h2 s hsm
                    · exact Nat.le_trans hclC (Nat.le_trans hc3 h3)
              · simp at h
            · split at h
              · simp at h
              · rename_i rest2 news conf cMid hpass
                simp only [Option.some.injEq] at h
                subst h
                obtain ⟨h1, h2, h3⟩ := ihPass rest c (rest2, news, conf, cMid)
                  hrest hc hpass
                refine ⟨?_, h2, h3⟩
                intro s hsm
                rcases List.mem_cons.1 hsm with hsm | hsm
                · rw [hsm]; exact hdecs1
                · exact h1 s hsm

/-- remove_implicit_duplicates over a list of sets keeps the token bound. -/
theorem imapRemoveDups_toks (m : Nat) :
    ∀ (sets : List IDecisionSet) (out : List IDecisionSet),
    (∀ s ∈ sets, ∀ d ∈ s.decisions, m ≤ d.tok) →
    imapRemoveDups sets = some out →
    ∀ s ∈ out, ∀ d ∈ s.decisions, m ≤ d.tok := by
  intro sets
  induction sets with
  | nil =>
    intro out _ h
    unfold imapRemoveDups at h
    simp at h
    subst h
    simp
  | cons s rest ih =>
    intro out hall h
    unfold imapRemoveDups at h
    split at h
    · simp at h
    · rename_i s2 hrid
      split at h
      · simp at h
      · rename_i rest2 hrest
        simp only [Option.some.injEq] at h
        subst h
        intro t ht
        rcases List.mem_cons.1 ht with ht | ht
        · rw [ht]
          exact iremove_implicit_duplicates_toks m s s2
            (hall s (List.mem_cons_self _ _)) hrid
        · exact ih rest2
            (fun u hu => hall u (List.mem_cons_of_mem _ hu)) hrest t ht

/-- C9: trickle_decision_change never mutates the base set and shares no
Decision object with it. In this embedding state is passed by value, so the
base set is unchanged by construction; object identity is made observable by
the allocation token each IDecision carries. If every decision of the base
set was allocated before the call (token below the entry counter), then
every decision in every returned set was allocated during the call: its
token is at or above the entry counter, hence distinct from the token of
every base decision, so no returned set shares a Decision object with the
base. -/
theorem c9_fresh_allocation (fuel : Nat) (base : IDecisionSet)
    (cs : CallSite) (inl : Bool) (c0 : Nat) (out : List IDecisionSet)
    (c1 : Nat)
    (hbase : ∀ d ∈ base.decisions, d.tok < c0)
    (h : itrickle_decision_change fuel base cs inl c0 = some (out, c1)) :
    ∀ s ∈ out, ∀ d ∈ s.decisions,
      c0 ≤ d.tok ∧ ∀ db ∈ base.decisions, d.tok ≠ db.tok := by
  unfold itrickle_decision_change at h
  simp only [] at h
  cases hcl : base.iclone c0 with
  | mk decs cA => ?_
  rw [hcl] at h
  simp only [] at h
  obtain ⟨hdecs, hcA⟩ := iclone_inv c0 base c0 decs cA (Nat.le_refl c0) hcl
  split at h
  · simp at h
  · rename_i og hdf
    split at h
    · simp at h
    · rename_i ds2 c2 hrep
      obtain ⟨hds2, hc2⟩ := ireplace_inv c0 decs og cs inl true cA ds2 c2
        hdecs hcA hrep
      split at h
      · simp at h
      · rename_i upd hdf2
        split at h
        · simp at h
        · rename_i final c3 htr
          have hfin : (∀ s ∈ final, ∀ d ∈ s.decisions, c0 ≤ d.tok) ∧
              c2 ≤ c3 := by
            cases inl with
            | true =>
              simp at htr
              exact itrickle_positive_inv c0 ds2 upd c2 final c3 hds2
                (by omega) htr
            | false =>
              simp at htr
              exact (itrio_inv c0 fuel).1 ds2 upd c2 final c3 hds2
                (by omega) htr
          obtain ⟨hfinT, _⟩ := hfin
          split at h
          · simp at h
          · rename_i final2 hmap
            simp only [Option.some.injEq, Prod.mk.injEq] at h
            obtain ⟨h1, h2⟩ := h
            subst h1
            intro s hs d hd
            have hdt : c0 ≤ d.tok :=
              imapRemoveDups_toks c0 final final2 hfinT hmap s hs d hd
            refine ⟨hdt, ?_⟩
            intro db hdb
            have := hbase db hdb
            omega

/-- Witness for C9: on the two-decision base with tokens 0 and 1 and entry
counter 2, the pipeline returns one set whose decisions all carry tokens
allocated during the call, none equal to a base token. -/
theorem c9_witness :
    (∀ d ∈ c9Base.decisions, d.tok < 2) ∧
    ∀ s ∈ c9Out, ∀ d ∈ s.decisions,
      2 ≤ d.tok ∧ ∀ db ∈ c9Base.decisions, d.tok ≠ db.tok :=
  ⟨by decide,
   c9_fresh_allocation 9 c9Base (CallSite.mk "A" "B" "l1") true 2 c9Out 6
     (by decide) (by decide)⟩
